import Mathlib

/-!
HashMap.hpp and Dictionary.hpp: a shallow embedding.

The class `HashMap<KeyT, ValueT>` (separate chaining, load-factor driven
resizing) and its specialisation `Dictionary` are embedded as pure functions
on an explicit state.

Modelling conventions.

* The state has the three data members of the class.  `_map` (a heap array
  of `std::vector<std::pair<KeyT, ValueT>>`) is a list of buckets, a bucket
  is a list of pairs in insertion order.  The physical length of `_map` is
  the length given to `new[]`; it is kept apart from `_capacity`, as in the
  source (the copy constructor makes the two differ).
* `_size` and `_capacity` are `int` members that no member function makes
  negative; they are natural numbers here.  A table whose capacity would
  reach `2^31` does not fit in memory, so `_capacity *= 2` is plain
  doubling.
* `std::hash<KeyT>` is a parameter `hash : K → Nat` (the `size_t` result).
  `operator==` on keys is decidable equality, `ValueT()` is `default`.
* `get_load_factor()` is `(double) _size / _capacity`.  For `int` operands
  the comparison of that quotient with `0.75` or `0.25` is exact, so
  `get_load_factor() > UPPER_BOUNDARY` is `3 * _capacity < 4 * _size` and
  `get_load_factor() < LOWER_BOUNDARY` is `4 * _size < _capacity` (this also
  agrees with IEEE arithmetic at `_capacity = 0`, where the quotient is
  `+inf` or `NaN`).
* Reads `_map[i]` are `bucket m i`, writes are `List.set`.  Theorem
  `hash_function_lt` and the invariant `_capacity ≤ _map.length` show that
  every access made by the member functions below is in bounds.  The one
  loop whose writes can leave the array, in the copy constructor, checks
  the bound explicitly.
* `insert` and `rehash` call each other.  `rehashF fuel` bounds the nesting
  depth of `rehash` calls by `fuel`.  A result `none` means that the call
  has no defined result: the budget ran out, a loop does not terminate, or a
  write falls outside its array.
* A member function that can throw returns `Except Exception _` paired with
  the state it leaves behind.  `const` member functions are functions of the
  state alone.
* A parameter passed by value (`operator==`, `operator!=`, `operator=`) is
  copy-constructed from the argument by `mk_copy`.
* An iterator has its three data members and the address of the iterator
  object itself, which `operator==` depends on.  `operator++` returns, with
  the iterator, the indices of the buckets whose size it has read; a read
  behind the array yields an unspecified size `oob i`, and the theorems on
  the iteration hold for every `oob`.
* The range `[first, last)` given to `Dictionary::update` is the list of its
  pairs; its loop has an iteration budget of its own.
-/

/-- The exceptions thrown by the two classes: `std::out_of_range`,
`std::invalid_argument` and `InvalidKey` (of Dictionary.hpp). -/
inductive Exception where
  | out_of_range
  | invalid_argument
  | InvalidKey
deriving DecidableEq, Repr

/-- The data members of `HashMap<KeyT, ValueT>`. -/
structure HashMap (K V : Type) where
  _size : Nat
  _capacity : Nat
  _map : List (List (K × V))
deriving DecidableEq, Repr

namespace HashMap

variable {K V : Type} [DecidableEq K]

def START_CAPACITY : Nat := 16

/-- The read `_map[i]`. -/
def bucket (m : HashMap K V) (i : Nat) : List (K × V) :=
  m._map.getD i []

/-- The entries visited by `for i < capacity, for j < old_map[i].size()`,
in that order (the loops of `rehash`). -/
def entries_of (old_map : List (List (K × V))) (old_capacity : Nat) : List (K × V) :=
  (old_map.take old_capacity).flatten

/-- All stored entries, in bucket order. -/
def entries (m : HashMap K V) : List (K × V) :=
  entries_of m._map m._capacity

/-- The member `size()`. -/
def size (m : HashMap K V) : Nat := m._size

/-- The member `capacity()`. -/
def capacity (m : HashMap K V) : Nat := m._capacity

/-- The member `empty()`. -/
def empty (m : HashMap K V) : Bool := m._size == 0

/-- The member `get_load_factor()` as an exact quotient (used in statements only; the
member functions use the two comparisons below). -/
def get_load_factor (m : HashMap K V) : ℚ := (m._size : ℚ) / (m._capacity : ℚ)

/-- The test `get_load_factor() > UPPER_BOUNDARY`. -/
def above_upper (m : HashMap K V) : Bool := decide (3 * m._capacity < 4 * m._size)

/-- The test `get_load_factor() < LOWER_BOUNDARY`. -/
def below_lower (m : HashMap K V) : Bool := decide (4 * m._size < m._capacity)

/-- The member `hash_function(key)`: `std::hash<KeyT>{}(key) & (_capacity - 1)`. -/
def hash_function (hash : K → Nat) (m : HashMap K V) (key : K) : Nat :=
  hash key &&& (m._capacity - 1)

/-- The member `contains_key(key)`: linear scan of the bucket of `key`. -/
def contains_key (hash : K → Nat) (m : HashMap K V) (key : K) : Bool :=
  (bucket m (hash_function hash m key)).any (fun e => e.1 == key)

/-- The default constructor. -/
def mk_default : HashMap K V :=
  { _size := 0, _capacity := START_CAPACITY, _map := List.replicate START_CAPACITY [] }

/-- The loop `while (get_load_factor() > UPPER_BOUNDARY) _capacity *= 2`
run for at most `n` iterations. -/
def grow_loop (s : Nat) : Nat → Nat → Option Nat
  | 0, c => if 3 * c < 4 * s then none else some c
  | n + 1, c => if 3 * c < 4 * s then grow_loop s n (2 * c) else some c

/-- The capacity after the grow loop.  `4 * s` iterations are enough
whenever the loop terminates (theorem `grow_capacity_spec`); with
`c = 0 < s` it does not terminate. -/
def grow_capacity (s c : Nat) : Option Nat := grow_loop s (4 * s) c

/-- The loop `while (get_load_factor() < LOWER_BOUNDARY && _capacity > 1)
_capacity /= 2` run for at most `n` iterations. -/
def shrink_loop (s : Nat) : Nat → Nat → Nat
  | 0, c => c
  | n + 1, c => if 4 * s < c ∧ 1 < c then shrink_loop s n (c / 2) else c

/-- The capacity after the shrink loop; `c` iterations are always enough
(theorem `shrink_capacity_exit`). -/
def shrink_capacity (s c : Nat) : Nat := shrink_loop s c c

/-- The body of `insert(key, value)`, with the call of `rehash()` as a
parameter. -/
def insertWith (hash : K → Nat) (rh : HashMap K V → Option (HashMap K V))
    (m : HashMap K V) (key : K) (value : V) : Option (Bool × HashMap K V) :=
  if contains_key hash m key then some (false, m)
  else
    let index := hash_function hash m key
    let m1 : HashMap K V :=
      { m with _map := m._map.set index (bucket m index ++ [(key, value)]),
               _size := m._size + 1 }
    if above_upper m1 then (rh m1).map (fun m2 => (true, m2))
    else some (true, m1)

/-- The re-insertion loops of `rehash` and `operator=`: `insert` is called
on every entry in turn, its result is discarded. -/
def reinsert (ins : HashMap K V → K → V → Option (Bool × HashMap K V))
    (es : List (K × V)) (m : HashMap K V) : Option (HashMap K V) :=
  es.foldlM (fun acc e => (ins acc e.1 e.2).map Prod.snd) m

/-- The body of `rehash()`, with the calls of `insert` as a parameter. -/
def rehashWith (ins : HashMap K V → K → V → Option (Bool × HashMap K V))
    (m : HashMap K V) : Option (HashMap K V) :=
  let old_capacity := m._capacity
  let old_map := m._map
  (if above_upper m then
      (grow_capacity m._size m._capacity).bind fun c =>
        reinsert ins (entries_of old_map old_capacity)
          { _size := 0, _capacity := c, _map := List.replicate c [] }
    else some m).bind fun m1 =>
  if below_lower m1 then
    let c := shrink_capacity m1._size m1._capacity
    reinsert ins (entries_of old_map old_capacity)
      { _size := 0, _capacity := c, _map := List.replicate c [] }
  else some m1

/-- The private member `rehash()`, nested at most `fuel` deep. -/
def rehashF (hash : K → Nat) : Nat → HashMap K V → Option (HashMap K V)
  | 0 => fun _ => none
  | fuel + 1 => rehashWith (insertWith hash (rehashF hash fuel))

/-- The member `insert(key, value)`: the returned flag and the state. -/
def insert (hash : K → Nat) (fuel : Nat) (m : HashMap K V) (key : K) (value : V) :
    Option (Bool × HashMap K V) :=
  insertWith hash (rehashF hash fuel) m key value

/-- The member `bucket_index(key)`. -/
def bucket_index (hash : K → Nat) (m : HashMap K V) (key : K) : Except Exception Nat :=
  if !contains_key hash m key then .error .invalid_argument
  else .ok (hash_function hash m key)

/-- The member `bucket_size(key)`. -/
def bucket_size (hash : K → Nat) (m : HashMap K V) (key : K) : Except Exception Nat :=
  if !contains_key hash m key then .error .invalid_argument
  else .ok (bucket m (hash_function hash m key)).length

/-- The member `erase(key)`: the returned flag and the state.  The loop
removes the first pair of the bucket whose key is `key`; `bucket_index`
cannot throw after the `contains_key` test. -/
def erase (hash : K → Nat) (fuel : Nat) (m : HashMap K V) (key : K) :
    Option (Bool × HashMap K V) :=
  if !contains_key hash m key then some (false, m)
  else
    let index := hash_function hash m key
    let m1 : HashMap K V :=
      { m with _map := m._map.set index ((bucket m index).eraseP (fun e => e.1 == key)),
               _size := m._size - 1 }
    if below_lower m1 then (rehashF hash fuel m1).map (fun m2 => (true, m2))
    else some (true, m1)

/-- The member `clear()`: the buckets `0 .. _capacity - 1` are emptied. -/
def clear (m : HashMap K V) : HashMap K V :=
  { m with _map := (m._map.take m._capacity).map (fun _ => []) ++ m._map.drop m._capacity,
           _size := 0 }

/-- The read-only `operator[]`. -/
def operator_index_const [Inhabited V] (hash : K → Nat) (m : HashMap K V) (key : K) : V :=
  if !contains_key hash m key then default
  else
    match (bucket m (hash_function hash m key)).find? (fun e => e.1 == key) with
    | some elem => elem.2
    | none => default

/-- The read-only `at(key)`. -/
def at_const [Inhabited V] (hash : K → Nat) (m : HashMap K V) (key : K) : Except Exception V :=
  if !contains_key hash m key then .error .invalid_argument
  else .ok (operator_index_const hash m key)

/-- The search loop that ends the non-const `operator[]`: the
value under the reference it returns, or `std::invalid_argument`. -/
def index_loop (hash : K → Nat) (m : HashMap K V) (key : K) : Except Exception V × HashMap K V :=
  match (bucket m (hash_function hash m key)).find? (fun e => e.1 == key) with
  | some elem => (.ok elem.2, m)
  | none => (.error .invalid_argument, m)

/-- The non-const `at(key)`.  It calls the non-const `operator[]` only
after `contains_key(key)` held, where that operator runs its search
loop. -/
def at_mut (hash : K → Nat) (m : HashMap K V) (key : K) : Except Exception V × HashMap K V :=
  if !contains_key hash m key then (.error .invalid_argument, m)
  else index_loop hash m key

/-- The non-const `operator[]`: the value under the returned reference and
the state. -/
def operator_index [Inhabited V] (hash : K → Nat) (fuel : Nat) (m : HashMap K V) (key : K) :
    Option (Except Exception V × HashMap K V) :=
  if !contains_key hash m key then
    (insert hash fuel m key default).map fun r => at_mut hash r.2 key
  else some (index_loop hash m key)

/-- A store through the reference returned by the non-const `operator[]`
or `at`: the reference designates the first pair of the bucket of `key`
whose key is `key`. -/
def store (hash : K → Nat) (m : HashMap K V) (key : K) (value : V) : HashMap K V :=
  let index := hash_function hash m key
  let j := (bucket m index).findIdx (fun e => e.1 == key)
  { m with _map := m._map.set index ((bucket m index).modify (fun e => (e.1, value)) j) }

/-- The statement `(*this)[key] = value`. -/
def assign [Inhabited V] (hash : K → Nat) (fuel : Nat) (m : HashMap K V) (key : K) (value : V) :
    Option (Except Exception Unit × HashMap K V) :=
  (operator_index hash fuel m key).map fun r =>
    match r.1 with
    | .ok _ => (.ok (), store hash r.2 key value)
    | .error e => (.error e, r.2)

/-- The loop `for i < keys.size(): (*this)[keys[i]] = values[i]` of the
two-vector constructor; an exception ends it. -/
def assign_all [Inhabited V] (hash : K → Nat) (fuel : Nat) :
    List (K × V) → HashMap K V → Option (Except Exception (HashMap K V))
  | [], m => some (.ok m)
  | (k, v) :: rest, m =>
    match assign hash fuel m k v with
    | none => none
    | some (.error e, _) => some (.error e)
    | some (.ok _, m1) => assign_all hash fuel rest m1

/-- The constructor `HashMap(keys, values)`: the constructed object, or the
exception that leaves no object. -/
def mk_vectors [Inhabited V] (hash : K → Nat) (fuel : Nat) (keys : List K) (values : List V) :
    Option (Except Exception (HashMap K V)) :=
  if keys.length ≠ values.length then some (.error .out_of_range)
  else assign_all hash fuel (keys.zip values) mk_default

/-- The loop `for i < rhs._capacity: _map[i] = rhs._map[i]` of the copy
constructor, from index `i` on, `n` iterations; a write outside the
array allocated for the copy has no defined result. -/
def copy_loop (rhs_map : List (List (K × V))) : Nat → Nat → List (List (K × V)) →
    Option (List (List (K × V)))
  | 0, _, t => some t
  | n + 1, i, t =>
    if i < t.length then copy_loop rhs_map n (i + 1) (t.set i (rhs_map.getD i []))
    else none

/-- The copy constructor: `_map` is allocated with `START_CAPACITY`
buckets. -/
def mk_copy (rhs : HashMap K V) : Option (HashMap K V) :=
  (copy_loop rhs._map rhs._capacity 0 (List.replicate START_CAPACITY [])).map fun t =>
    { _size := rhs._size, _capacity := rhs._capacity, _map := t }

/-- The states a program can reach: the three constructors, then `insert`,
`erase`, `clear`, the non-const `operator[]` and stores through the
reference it returns. -/
inductive Reachable [Inhabited V] (hash : K → Nat) : HashMap K V → Prop
  | default : Reachable hash mk_default
  | vectors (fuel : Nat) (keys : List K) (values : List V) (m : HashMap K V) :
      mk_vectors hash fuel keys values = some (.ok m) → Reachable hash m
  | copy (rhs m : HashMap K V) :
      Reachable hash rhs → mk_copy rhs = some m → Reachable hash m
  | insert (fuel : Nat) (m : HashMap K V) (key : K) (value : V) (b : Bool) (m1 : HashMap K V) :
      Reachable hash m → insert hash fuel m key value = some (b, m1) → Reachable hash m1
  | erase (fuel : Nat) (m : HashMap K V) (key : K) (b : Bool) (m1 : HashMap K V) :
      Reachable hash m → erase hash fuel m key = some (b, m1) → Reachable hash m1
  | clear (m : HashMap K V) : Reachable hash m → Reachable hash (clear m)
  | index (fuel : Nat) (m : HashMap K V) (key : K) (r : Except Exception V) (m1 : HashMap K V) :
      Reachable hash m → operator_index hash fuel m key = some (r, m1) → Reachable hash m1
  | assign (fuel : Nat) (m : HashMap K V) (key : K) (value : V) (r : Except Exception Unit)
      (m1 : HashMap K V) :
      Reachable hash m → assign hash fuel m key value = some (r, m1) → Reachable hash m1

/-- The state of `insert` after `_map[index].push_back(std::make_pair(key, value));
_size++`. -/
def pushed (hash : K → Nat) (m : HashMap K V) (key : K) (value : V) : HashMap K V :=
  { m with _map := m._map.set (hash_function hash m key)
                     (bucket m (hash_function hash m key) ++ [(key, value)]),
           _size := m._size + 1 }

/-- The state of `erase` after its loop has removed the pair of `key`. -/
def erased (hash : K → Nat) (m : HashMap K V) (key : K) : HashMap K V :=
  { m with _map := m._map.set (hash_function hash m key)
                     ((bucket m (hash_function hash m key)).eraseP (fun e => e.1 == key)),
           _size := m._size - 1 }

/-- The table allocated by `rehash`: `c` empty buckets, `_size = 0`. -/
def fresh (c : Nat) : HashMap K V :=
  { _size := 0, _capacity := c, _map := List.replicate c [] }

/-- The structural invariant of the table: there is at least one bucket, the
array holds `_capacity` buckets or more, every pair lies in the bucket of
its key, no bucket holds a key twice, and `_size` counts the pairs. -/
structure WFc (hash : K → Nat) (m : HashMap K V) : Prop where
  cap_pos : 0 < m._capacity
  len_ge : m._capacity ≤ m._map.length
  place : ∀ i e, e ∈ bucket m i → hash_function hash m e.1 = i
  nodup : ∀ i, ((bucket m i).map Prod.fst).Nodup
  size_eq : m._size = m._map.flatten.length

/-- The invariant of the reachable states: the structural invariant, the
upper load bound and a capacity that is a power of two. -/
structure Inv (hash : K → Nat) (m : HashMap K V) : Prop where
  wf : WFc hash m
  upper : 4 * m._size ≤ 3 * m._capacity
  pow2 : ∃ n, m._capacity = 2 ^ n

end HashMap

/-- The class `Dictionary : public HashMap<std::string, std::string>`. -/
abbrev Dictionary := HashMap String String

namespace Dictionary

/-- The member `Dictionary::erase(key)`: throws `InvalidKey` when `HashMap::erase`
returns false. -/
def erase (hash : String → Nat) (fuel : Nat) (d : Dictionary) (key : String) :
    Option (Except Exception Bool × Dictionary) :=
  (HashMap.erase hash fuel d key).map fun r =>
    if !r.1 then (.error .InvalidKey, r.2) else (.ok true, r.2)

end Dictionary

namespace HashMap

variable {K V : Type} [DecidableEq K]

/-- A call of one of the two mutating members `insert` and `erase`. -/
inductive Call (K V : Type) where
  | insert (key : K) (value : V)
  | erase (key : K)

/-- The flag returned by a call and the state after it. -/
def call (hash : K → Nat) (fuel : Nat) (m : HashMap K V) : Call K V → Option (Bool × HashMap K V)
  | .insert key value => insert hash fuel m key value
  | .erase key => erase hash fuel m key

/-- The state after a sequence of calls. -/
def run_calls (hash : K → Nat) (fuel : Nat) : List (Call K V) → HashMap K V → Option (HashMap K V)
  | [], m => some m
  | c :: cs, m => (call hash fuel m c).bind fun r => run_calls hash fuel cs r.2

/-- The load condition `0.25 ≤ size()/capacity() ≤ 0.75 or capacity() == 1`. -/
def load_within_bounds (m : HashMap K V) : Prop :=
  ((1 / 4 : ℚ) ≤ get_load_factor m ∧ get_load_factor m ≤ 3 / 4) ∨ capacity m = 1

/-- The default-constructed map after `insert(5, 7)`. -/
def sample_one_entry : HashMap Nat Nat :=
  ⟨1, 16, [[], [], [], [], [], [(5, 7)], [], [], [], [], [], [], [], [], [], []]⟩

/-- The map `sample_one_entry` after `erase(5)`: one bucket is left. -/
def sample_one_bucket : HashMap Nat Nat := ⟨0, 1, [[]]⟩

/-- The default-constructed map after `insert(0, 0)`, ..., `insert(n - 1,
n - 1)`, for `n ≤ 12`: the table still has its 16 buckets. -/
def sample_filled (n : Nat) : HashMap Nat Nat :=
  ⟨n, 16, (List.range 16).map (fun j => if j < n then [(j, j)] else [])⟩

/-- The map `sample_filled 12` after `insert(12, 12)`: 13 entries, and the
rehash has doubled the table to 32 buckets. -/
def sample_grown : HashMap Nat Nat :=
  ⟨13, 32, (List.range 32).map (fun j => if j < 13 then [(j, j)] else [])⟩

/-- The hash of the concrete examples: `std::hash<int>` of the common
standard libraries is the identity. -/
def hash_int : Nat → Nat := fun key => key

end HashMap

namespace HashMap

variable {K V : Type} [DecidableEq K]

/-- The first block of `rehash()`: `if (get_load_factor() > UPPER_BOUNDARY)`
with the grow loop and the re-insertion of the old entries. -/
def grow_block (ins : HashMap K V → K → V → Option (Bool × HashMap K V))
    (m : HashMap K V) : Option (HashMap K V) :=
  if above_upper m then
    (grow_capacity m._size m._capacity).bind fun c =>
      reinsert ins (entries_of m._map m._capacity)
        { _size := 0, _capacity := c, _map := List.replicate c [] }
  else some m

/-- The second block of `rehash()`: `if (get_load_factor() < LOWER_BOUNDARY)`
with the shrink loop and the re-insertion of the old entries, run on the state
`m1` that the first block leaves; `old_map` and `old_capacity` were saved on
entry. -/
def shrink_block (ins : HashMap K V → K → V → Option (Bool × HashMap K V))
    (old_map : List (List (K × V))) (old_capacity : Nat) (m1 : HashMap K V) :
    Option (HashMap K V) :=
  if below_lower m1 then
    let c := shrink_capacity m1._size m1._capacity
    reinsert ins (entries_of old_map old_capacity)
      { _size := 0, _capacity := c, _map := List.replicate c [] }
  else some m1

/-- The loops of `operator==` over the pairs of the left map, `rhs` being
the by-value parameter: `rhs.at` is the non-const `at`. -/
def eq_loop [DecidableEq V] (hash : K → Nat) (rhs : HashMap K V) :
    List (K × V) → Except Exception Bool
  | [] => .ok true
  | e :: rest =>
    if !contains_key hash rhs e.1 then .ok false
    else
      match (at_mut hash rhs e.1).1 with
      | .error ex => .error ex
      | .ok w => if e.2 ≠ w then .ok false else eq_loop hash rhs rest

/-- The member `operator==(HashMap rhs)`.  The parameter is passed by value:
it is copy-constructed from the argument. -/
def operator_eq [DecidableEq V] (hash : K → Nat) (lhs arg : HashMap K V) :
    Option (Except Exception Bool) :=
  (mk_copy arg).map fun rhs =>
    if rhs._size ≠ lhs._size then .ok false
    else eq_loop hash rhs (entries lhs)

/-- The member `operator!=(HashMap rhs)`: its parameter is copy-constructed
from the argument, and once more for the call of `operator==`. -/
def operator_ne [DecidableEq V] (hash : K → Nat) (lhs arg : HashMap K V) :
    Option (Except Exception Bool) :=
  (mk_copy arg).bind fun rhs => (operator_eq hash lhs rhs).map fun r => r.map (fun b => !b)

/-- The member `operator=(HashMap rhs)`: the state of the assigned map.  The
parameter is copy-constructed from the argument; the old table of the
assigned map is deleted, so the result does not depend on it. -/
def operator_assign (hash : K → Nat) (fuel : Nat) (arg : HashMap K V) : Option (HashMap K V) :=
  (mk_copy arg).bind fun rhs =>
    reinsert (insert hash fuel) (entries_of rhs._map rhs._capacity)
      { _size := 0, _capacity := rhs._capacity, _map := List.replicate rhs._capacity [] }

/-- The data members of `ConstIterator`, and `addr`, the address of the
iterator object itself: `operator==` compares addresses of members.
`hash_map_` is the address of the map. -/
structure ConstIterator where
  addr : Nat
  hash_map_ : Nat
  vector_index_ : Nat
  pair_index_ : Nat
deriving DecidableEq, Repr

/-- The member `ConstIterator::operator==`.  Its first conjunct is
`&hash_map_ == &rhs.hash_map_`: the addresses of the two members
`hash_map_`, which lie at the same offset of the two iterator objects and
so are equal exactly when the two objects are one. -/
def ConstIterator.operator_eq (it rhs : ConstIterator) : Bool :=
  decide (it.addr = rhs.addr) && decide (it.vector_index_ = rhs.vector_index_)
    && decide (it.pair_index_ = rhs.pair_index_)

/-- The member `ConstIterator::operator!=`. -/
def ConstIterator.operator_ne (it rhs : ConstIterator) : Bool :=
  !ConstIterator.operator_eq it rhs

/-- The value of `_map[i].size()` as the iterator reads it: behind the end
of the array the read yields an unspecified number `oob i`. -/
def size_read (oob : Nat → Nat) (m : HashMap K V) (i : Nat) : Nat :=
  if i < m._map.length then (bucket m i).length else oob i

/-- The loop `while (_map[vector_index_].size() == 0 && vector_index_ <
_capacity) vector_index_++` of `operator++`, run for at most `n` iterations:
the final `vector_index_` and the bucket indices read, in order.  The left
operand of `&&` is evaluated first. -/
def skip_loop (oob : Nat → Nat) (m : HashMap K V) : Nat → Nat → List Nat → Nat × List Nat
  | 0, vi, reads => (vi, reads)
  | n + 1, vi, reads =>
    if size_read oob m vi == 0 && decide (vi < m._capacity) then
      skip_loop oob m n (vi + 1) (reads ++ [vi])
    else (vi, reads ++ [vi])

/-- The prefix `operator++` on an iterator of the map `m`: the iterator
after the call and the bucket indices whose size was read.  The skip loop
ends within `_capacity + 1` iterations (theorem `skip_loop_spec`). -/
def increment (oob : Nat → Nat) (m : HashMap K V) (it : ConstIterator) :
    ConstIterator × List Nat :=
  if it.pair_index_ + 1 ≥ size_read oob m it.vector_index_ then
    let old_ind := it.vector_index_
    let r := skip_loop oob m (m._capacity + 1) (it.vector_index_ + 1) [it.vector_index_]
    ({ it with pair_index_ := 0,
               vector_index_ := if r.1 = m._capacity then old_ind + 1 else r.1 }, r.2)
  else ({ it with pair_index_ := it.pair_index_ + 1 }, [it.vector_index_])

/-- The member `operator*`: `_map[vector_index_][pair_index_]`, undefined
outside the bucket. -/
def deref (m : HashMap K V) (it : ConstIterator) : Option (K × V) :=
  (bucket m it.vector_index_)[it.pair_index_]?

/-- The loop `while (i < _capacity && _map[i].empty()) i++` of `cbegin`, run
for at most `n` iterations. -/
def cbegin_loop (m : HashMap K V) : Nat → Nat → Nat
  | 0, i => i
  | n + 1, i =>
    if decide (i < m._capacity) && (bucket m i).isEmpty then cbegin_loop m n (i + 1) else i

/-- The bucket index of `cbegin()`; `_capacity` iterations are enough. -/
def cbegin_index (m : HashMap K V) : Nat := cbegin_loop m m._capacity 0

/-- The bucket index of `cend()`. -/
def cend_index (m : HashMap K V) : Nat :=
  let e := (List.range m._capacity).foldl
    (fun e i => if !(bucket m i).isEmpty then i + 1 else e) 0
  if e = 0 then m._capacity else e

/-- The member `cbegin()` (and `begin()`), called on the map at address
`this_map`; the iterator object it returns lies at `addr`. -/
def cbegin (addr this_map : Nat) (m : HashMap K V) : ConstIterator :=
  { addr := addr, hash_map_ := this_map, vector_index_ := cbegin_index m, pair_index_ := 0 }

/-- The member `cend()` (and `end()`). -/
def cend (addr this_map : Nat) (m : HashMap K V) : ConstIterator :=
  { addr := addr, hash_map_ := this_map, vector_index_ := cend_index m, pair_index_ := 0 }

/-- The position of an iterator: bucket index and index in the bucket. -/
def position (it : ConstIterator) : Nat × Nat := (it.vector_index_, it.pair_index_)

/-- The iterator points at a stored pair. -/
def on_entry (m : HashMap K V) (it : ConstIterator) : Prop :=
  it.vector_index_ < m._capacity ∧ it.pair_index_ < (bucket m it.vector_index_).length

/-- The entries of the buckets `i .. _capacity - 1`, in bucket order. -/
def entries_from (m : HashMap K V) (i : Nat) : List (K × V) :=
  ((m._map.take m._capacity).drop i).flatten

end HashMap

namespace Dictionary

/-- The loop `while (first != last)` of `Dictionary::update`, run for at
most `n` iterations.  The range `[first, last)` is the list of the pairs in
it; the body does not advance `first`. -/
def update_loop (hash : String → Nat) (fuel : Nat) :
    Nat → List (String × String) → Dictionary → Option Dictionary
  | 0, first, d => if first = [] then some d else none
  | _ + 1, [], d => some d
  | n + 1, p :: rest, d =>
    ((if HashMap.contains_key hash d p.1 then (HashMap.erase hash fuel d p.1).map Prod.snd
      else some d).bind fun d1 =>
        (HashMap.insert hash fuel d1 p.1 p.2).map Prod.snd).bind fun d2 =>
      update_loop hash fuel n (p :: rest) d2

/-- The member `Dictionary::update(first, last)`: the state after the call,
`none` when the loop has not ended within `n` iterations.  The `first++`
behind the loop acts on the local copy of the iterator. -/
def update (hash : String → Nat) (fuel n : Nat) (d : Dictionary)
    (input : List (String × String)) : Option Dictionary :=
  update_loop hash fuel n input d

end Dictionary

/-! ## Lists of buckets -/

namespace HashMap

variable {K V : Type} [DecidableEq K]

theorem getD_set_buckets {α : Type} (L : List (List α)) (i j : Nat) (x : List α) :
    (L.set i x).getD j [] = if i = j ∧ i < L.length then x else L.getD j [] := by
  simp only [List.getD_eq_getElem?_getD, List.getElem?_set]
  by_cases h : i = j
  · subst h
    by_cases h2 : i < L.length
    · simp [h2]
    · simp [h2, List.getElem?_eq_none (Nat.le_of_not_lt h2)]
  · simp [h]

theorem mem_flatten_iff_getD {α : Type} (L : List (List α)) (e : α) :
    e ∈ L.flatten ↔ ∃ i, e ∈ L.getD i [] := by
  rw [List.mem_flatten]
  constructor
  · rintro ⟨b, hb, he⟩
    obtain ⟨i, hi, rfl⟩ := List.getElem_of_mem hb
    exact ⟨i, by simpa [List.getD_eq_getElem?_getD, List.getElem?_eq_getElem hi] using he⟩
  · rintro ⟨i, he⟩
    by_cases hi : i < L.length
    · refine ⟨L[i], List.getElem_mem hi, ?_⟩
      simpa [List.getD_eq_getElem?_getD, List.getElem?_eq_getElem hi] using he
    · simp [List.getD_eq_getElem?_getD, List.getElem?_eq_none (Nat.le_of_not_lt hi)] at he

theorem length_flatten_set {α : Type} (L : List (List α)) (i : Nat) (x : List α)
    (hi : i < L.length) :
    (L.set i x).flatten.length + (L.getD i []).length = L.flatten.length + x.length := by
  induction L generalizing i with
  | nil => simp at hi
  | cons b L ih =>
    cases i with
    | zero => simp; omega
    | succ i =>
      have := ih i (by simpa using hi)
      simp only [List.set_cons_succ, List.flatten_cons, List.length_append, List.getD_cons_succ]
      omega

theorem getD_replicate_nil {α : Type} (c i : Nat) :
    (List.replicate c ([] : List α)).getD i [] = [] := by
  by_cases h : i < c
  · simp [List.getD_eq_getElem?_getD, List.getElem?_replicate, h]
  · simp [List.getD_eq_getElem?_getD, List.getElem?_replicate, h]

theorem flatten_replicate_nil {α : Type} (c : Nat) :
    (List.replicate c ([] : List α)).flatten = [] := by
  induction c with
  | zero => rfl
  | succ c ih => simp [List.replicate_succ, ih]

end HashMap

/-! ## Buckets and keys -/

set_option linter.unusedSectionVars false

namespace HashMap

variable {K V : Type} [DecidableEq K] {hash : K → Nat}

theorem hash_function_lt (m : HashMap K V) (k : K) (h : 0 < m._capacity) :
    hash_function hash m k < m._capacity := by
  unfold hash_function
  have : hash k &&& (m._capacity - 1) ≤ m._capacity - 1 := Nat.and_le_right
  omega

theorem hash_function_congr {m m1 : HashMap K V} (h : m1._capacity = m._capacity) (k : K) :
    hash_function hash m1 k = hash_function hash m k := by
  simp [hash_function, h]

theorem contains_key_eq_true_iff (m : HashMap K V) (k : K) :
    contains_key hash m k = true ↔ ∃ v, (k, v) ∈ bucket m (hash_function hash m k) := by
  simp only [contains_key, List.any_eq_true, beq_iff_eq]
  constructor
  · rintro ⟨⟨a, b⟩, hmem, rfl⟩
    exact ⟨b, hmem⟩
  · rintro ⟨v, hv⟩
    exact ⟨(k, v), hv, rfl⟩

theorem contains_key_eq_false_iff (m : HashMap K V) (k : K) :
    contains_key hash m k = false ↔ ∀ v, (k, v) ∉ bucket m (hash_function hash m k) := by
  rw [← Bool.not_eq_true, contains_key_eq_true_iff]
  simp

theorem find_of_nodup_keys (b : List (K × V)) (k : K) (v : V)
    (hnd : (b.map Prod.fst).Nodup) (hmem : (k, v) ∈ b) :
    b.find? (fun e => e.1 == k) = some (k, v) := by
  induction b with
  | nil => simp at hmem
  | cons x b ih =>
    simp only [List.map_cons, List.nodup_cons] at hnd
    rcases List.mem_cons.1 hmem with h | h
    · subst h; simp
    · have hne : x.1 ≠ k := by
        intro hx
        exact hnd.1 (hx ▸ List.mem_map_of_mem Prod.fst h)
      rw [List.find?_cons_of_neg _ (by simpa using hne)]
      exact ih hnd.2 h

theorem mem_eraseP_key (b : List (K × V)) (k : K) (hnd : (b.map Prod.fst).Nodup) (e : K × V) :
    e ∈ b.eraseP (fun x => x.1 == k) ↔ e ∈ b ∧ e.1 ≠ k := by
  induction b with
  | nil => simp
  | cons x b ih =>
    simp only [List.map_cons, List.nodup_cons] at hnd
    by_cases hx : x.1 = k
    · have : (x :: b).eraseP (fun x => x.1 == k) = b := by
        simp [List.eraseP_cons, hx]
      rw [this]
      constructor
      · intro he
        refine ⟨List.mem_cons_of_mem _ he, ?_⟩
        intro hek
        exact hnd.1 (by rw [hx, ← hek]; exact List.mem_map_of_mem Prod.fst he)
      · rintro ⟨he, hek⟩
        rcases List.mem_cons.1 he with h | h
        · exact absurd (h ▸ hx) hek
        · exact h
    · have : (x :: b).eraseP (fun x => x.1 == k) = x :: b.eraseP (fun x => x.1 == k) := by
        simp [List.eraseP_cons, hx]
      rw [this, List.mem_cons, List.mem_cons, ih hnd.2]
      constructor
      · rintro (h | h)
        · exact ⟨Or.inl h, h ▸ hx⟩
        · exact ⟨Or.inr h.1, h.2⟩
      · rintro ⟨h | h, hek⟩
        · exact Or.inl h
        · exact Or.inr ⟨h, hek⟩

theorem nodup_keys_eraseP (b : List (K × V)) (k : K) (hnd : (b.map Prod.fst).Nodup) :
    ((b.eraseP (fun x => x.1 == k)).map Prod.fst).Nodup :=
  List.Nodup.sublist ((List.eraseP_sublist b).map Prod.fst) hnd

theorem length_eraseP_key (b : List (K × V)) (k : K) (v : V) (hmem : (k, v) ∈ b) :
    (b.eraseP (fun x => x.1 == k)).length + 1 = b.length := by
  have h1 := List.length_eraseP_of_mem (p := fun x : K × V => x.1 == k) hmem (by simp)
  have h2 : 0 < b.length := List.length_pos_of_mem hmem
  omega

end HashMap

/-! ## The structural invariant -/

namespace HashMap

variable {K V : Type} [DecidableEq K] {hash : K → Nat}

theorem WFc.index_lt {m : HashMap K V} (h : WFc hash m) (k : K) :
    hash_function hash m k < m._map.length :=
  Nat.lt_of_lt_of_le (hash_function_lt m k h.cap_pos) h.len_ge

theorem WFc.mem_iff_bucket {m : HashMap K V} (h : WFc hash m) (e : K × V) :
    e ∈ m._map.flatten ↔ e ∈ bucket m (hash_function hash m e.1) := by
  rw [mem_flatten_iff_getD]
  constructor
  · rintro ⟨i, hi⟩
    have := h.place i e hi
    rw [this]; exact hi
  · intro he
    exact ⟨_, he⟩

theorem WFc.contains_iff {m : HashMap K V} (h : WFc hash m) (k : K) :
    contains_key hash m k = true ↔ ∃ v, (k, v) ∈ m._map.flatten := by
  rw [contains_key_eq_true_iff]
  constructor
  · rintro ⟨v, hv⟩; exact ⟨v, (h.mem_iff_bucket (k, v)).2 hv⟩
  · rintro ⟨v, hv⟩; exact ⟨v, (h.mem_iff_bucket (k, v)).1 hv⟩

theorem WFc.bucket_eq_nil {m : HashMap K V} (h : WFc hash m) (i : Nat) (hi : m._capacity ≤ i) :
    bucket m i = [] := by
  rcases hb : bucket m i with _ | ⟨e, b⟩
  · rfl
  · have h1 := h.place i e (by rw [hb]; exact List.mem_cons_self _ _)
    have h2 : hash_function hash m e.1 < m._capacity := hash_function_lt m e.1 h.cap_pos
    omega

theorem WFc.entries_eq {m : HashMap K V} (h : WFc hash m) : entries m = m._map.flatten := by
  unfold entries entries_of
  conv_rhs => rw [← List.take_append_drop m._capacity m._map]
  rw [List.flatten_append]
  have : (m._map.drop m._capacity).flatten = [] := by
    rw [List.flatten_eq_nil_iff]
    intro b hb
    obtain ⟨i, hi, rfl⟩ := List.getElem_of_mem hb
    have := h.bucket_eq_nil (m._capacity + i) (by omega)
    rw [List.getElem_drop]
    simp only [bucket, List.getD_eq_getElem?_getD] at this
    rw [List.length_drop] at hi
    rw [List.getElem?_eq_getElem (by omega)] at this
    simpa using this
  rw [this, List.append_nil]

theorem WFc.unique_value {m : HashMap K V} (h : WFc hash m) {k : K} {v w : V}
    (hv : (k, v) ∈ m._map.flatten) (hw : (k, w) ∈ m._map.flatten) : v = w := by
  have h1 := (h.mem_iff_bucket (k, v)).1 hv
  have h2 := (h.mem_iff_bucket (k, w)).1 hw
  have := List.inj_on_of_nodup_map (h.nodup (hash_function hash m k)) h1 h2 rfl
  exact (Prod.mk.inj this).2

theorem WFc.find_eq {m : HashMap K V} (h : WFc hash m) {k : K} {v : V}
    (hv : (k, v) ∈ m._map.flatten) :
    (bucket m (hash_function hash m k)).find? (fun e => e.1 == k) = some (k, v) :=
  find_of_nodup_keys _ k v (h.nodup _) ((h.mem_iff_bucket (k, v)).1 hv)

theorem WFc.nodup_keys {m : HashMap K V} (h : WFc hash m) :
    (m._map.flatten.map Prod.fst).Nodup := by
  have key : ∀ (L : List (List (K × V))),
      (∀ i, ((L.getD i []).map Prod.fst).Nodup) →
      (∀ i j e e2, e ∈ L.getD i [] → e2 ∈ L.getD j [] → e.1 = e2.1 → i = j) →
      (L.flatten.map Prod.fst).Nodup := by
    intro L
    induction L with
    | nil => intro _ _; simp
    | cons b L ih =>
      intro hnd hpl
      rw [List.flatten_cons, List.map_append, List.nodup_append]
      refine ⟨by simpa using hnd 0, ?_, ?_⟩
      · apply ih
        · intro i; simpa using hnd (i + 1)
        · intro i j e e2 he he2 hk
          have := hpl (i + 1) (j + 1) e e2 (by simpa using he) (by simpa using he2) hk
          omega
      · intro a ha ha2
        obtain ⟨e, he, rfl⟩ := List.mem_map.1 ha
        obtain ⟨e2, he2, hk⟩ := List.mem_map.1 ha2
        obtain ⟨j, hj⟩ := (mem_flatten_iff_getD L e2).1 he2
        have := hpl 0 (j + 1) e e2 (by simpa using he) (by simpa using hj) hk.symm
        omega
  apply key
  · exact h.nodup
  · intro i j e e2 he he2 hk
    have h1 := h.place i e he
    have h2 := h.place j e2 he2
    rw [← h1, ← h2, hk]

theorem WFc_fresh (c : Nat) (hc : 0 < c) : WFc hash (fresh c : HashMap K V) where
  cap_pos := hc
  len_ge := by simp [fresh]
  place := by intro i e he; simp [bucket, fresh, getD_replicate_nil] at he
  nodup := by intro i; simp [bucket, fresh, getD_replicate_nil]
  size_eq := by simp [fresh, flatten_replicate_nil]

end HashMap

/-! ## The steps of insert and erase before the load test -/

namespace HashMap

variable {K V : Type} [DecidableEq K] {hash : K → Nat}

theorem bucket_pushed {m : HashMap K V} (h : WFc hash m) (k : K) (v : V) (j : Nat) :
    bucket (pushed hash m k v) j =
      if hash_function hash m k = j then bucket m j ++ [(k, v)] else bucket m j := by
  simp only [bucket, pushed, getD_set_buckets]
  by_cases hj : hash_function hash m k = j
  · subst hj; simp [h.index_lt k]
  · simp [hj]

theorem mem_pushed {m : HashMap K V} (h : WFc hash m) (k : K) (v : V) (e : K × V) :
    e ∈ (pushed hash m k v)._map.flatten ↔ e ∈ m._map.flatten ∨ e = (k, v) := by
  rw [mem_flatten_iff_getD, mem_flatten_iff_getD]
  constructor
  · rintro ⟨j, hj⟩
    have := bucket_pushed h k v j
    simp only [bucket] at this
    rw [this] at hj
    split at hj
    · rcases List.mem_append.1 hj with h1 | h1
      · exact Or.inl ⟨j, h1⟩
      · exact Or.inr (by simpa using h1)
    · exact Or.inl ⟨j, hj⟩
  · rintro (⟨j, hj⟩ | rfl)
    · refine ⟨j, ?_⟩
      have := bucket_pushed h k v j
      simp only [bucket] at this
      rw [this]
      split
      · exact List.mem_append_left _ hj
      · exact hj
    · refine ⟨hash_function hash m k, ?_⟩
      have := bucket_pushed h k v (hash_function hash m k)
      simp only [bucket] at this
      rw [this]
      simp

theorem WFc_pushed {m : HashMap K V} (h : WFc hash m) (k : K) (v : V)
    (habs : contains_key hash m k = false) : WFc hash (pushed hash m k v) where
  cap_pos := h.cap_pos
  len_ge := by simpa [pushed] using h.len_ge
  place := by
    intro i e he
    rw [bucket_pushed h] at he
    have hc : hash_function hash (pushed hash m k v) e.1 = hash_function hash m e.1 :=
      hash_function_congr rfl _
    rw [hc]
    split at he
    · rcases List.mem_append.1 he with h1 | h1
      · exact h.place i e h1
      · have : e = (k, v) := by simpa using h1
        subst this; assumption
    · exact h.place i e he
  nodup := by
    intro i
    rw [bucket_pushed h]
    split
    · rename_i hi
      rw [List.map_append, List.nodup_append]
      refine ⟨h.nodup i, by simp, ?_⟩
      intro a ha ha2
      have hak : a = k := by simpa using ha2
      subst hak
      obtain ⟨e, he, rfl⟩ := List.mem_map.1 ha
      rw [contains_key_eq_false_iff] at habs
      exact habs e.2 (by rw [hi]; exact he)
    · exact h.nodup i
  size_eq := by
    have := length_flatten_set m._map (hash_function hash m k)
      (bucket m (hash_function hash m k) ++ [(k, v)]) (h.index_lt k)
    have h2 := h.size_eq
    simp only [pushed, bucket, List.length_append, List.length_singleton] at this ⊢
    omega

theorem bucket_erased {m : HashMap K V} (h : WFc hash m) (k : K) (j : Nat) :
    bucket (erased hash m k) j =
      if hash_function hash m k = j then (bucket m j).eraseP (fun e => e.1 == k)
      else bucket m j := by
  simp only [bucket, erased, getD_set_buckets]
  by_cases hj : hash_function hash m k = j
  · subst hj; simp [h.index_lt k]
  · simp [hj]

theorem mem_erased {m : HashMap K V} (h : WFc hash m) (k : K) (e : K × V) :
    e ∈ (erased hash m k)._map.flatten ↔ e ∈ m._map.flatten ∧ e.1 ≠ k := by
  rw [mem_flatten_iff_getD, mem_flatten_iff_getD]
  constructor
  · rintro ⟨j, hj⟩
    have := bucket_erased h k j
    simp only [bucket] at this
    rw [this] at hj
    split at hj
    · have := (mem_eraseP_key _ k (h.nodup j) e).1 hj
      exact ⟨⟨j, this.1⟩, this.2⟩
    · rename_i hne
      refine ⟨⟨j, hj⟩, ?_⟩
      intro hk
      have := h.place j e hj
      rw [hk] at this
      exact hne this
  · rintro ⟨⟨j, hj⟩, hk⟩
    refine ⟨j, ?_⟩
    have := bucket_erased h k j
    simp only [bucket] at this
    rw [this]
    split
    · exact (mem_eraseP_key _ k (h.nodup j) e).2 ⟨hj, hk⟩
    · exact hj

theorem WFc_erased {m : HashMap K V} (h : WFc hash m) (k : K)
    (hpres : contains_key hash m k = true) :
    WFc hash (erased hash m k) ∧ (erased hash m k)._size + 1 = m._size := by
  obtain ⟨v, hv⟩ := (contains_key_eq_true_iff m k).1 hpres
  have hlen := length_flatten_set m._map (hash_function hash m k)
      ((bucket m (hash_function hash m k)).eraseP (fun e => e.1 == k)) (h.index_lt k)
  have hl2 := length_eraseP_key _ k v hv
  have h2 := h.size_eq
  have hsz : (erased hash m k)._size = (erased hash m k)._map.flatten.length := by
    simp only [erased, bucket] at hlen hl2 ⊢
    omega
  refine ⟨⟨h.cap_pos, by simpa [erased] using h.len_ge, ?_, ?_, hsz⟩, ?_⟩
  · intro i e he
    rw [bucket_erased h] at he
    have hc : hash_function hash (erased hash m k) e.1 = hash_function hash m e.1 :=
      hash_function_congr rfl _
    rw [hc]
    split at he
    · exact h.place i e ((mem_eraseP_key _ k (h.nodup i) e).1 he).1
    · exact h.place i e he
  · intro i
    rw [bucket_erased h]
    split
    · exact nodup_keys_eraseP _ k (h.nodup i)
    · exact h.nodup i
  · simp only [erased, bucket] at hlen hl2 ⊢
    omega

end HashMap

/-! ## The two capacity loops -/

namespace HashMap

variable {K V : Type} [DecidableEq K] {hash : K → Nat}

theorem grow_loop_spec (s : Nat) : ∀ (n c : Nat), 0 < c → 4 * s ≤ 3 * c + n →
    ∃ c1, grow_loop s n c = some c1 ∧ 4 * s ≤ 3 * c1 ∧ (∃ j, c1 = c * 2 ^ j) ∧
      (c1 = c ∨ 3 * c1 < 8 * s) := by
  intro n
  induction n with
  | zero =>
    intro c _ h
    refine ⟨c, ?_, by omega, ⟨0, by simp⟩, Or.inl rfl⟩
    simp only [grow_loop]
    rw [if_neg (by omega)]
  | succ n ih =>
    intro c hc h
    by_cases hlt : 3 * c < 4 * s
    · obtain ⟨c1, h1, h2, ⟨j, hj⟩, h4⟩ := ih (2 * c) (by omega) (by omega)
      refine ⟨c1, ?_, h2, ⟨j + 1, ?_⟩, Or.inr ?_⟩
      · simp only [grow_loop]
        rw [if_pos hlt]; exact h1
      · rw [hj, pow_succ]; ring
      · rcases h4 with h4 | h4
        · omega
        · exact h4
    · refine ⟨c, ?_, by omega, ⟨0, by simp⟩, Or.inl rfl⟩
      simp only [grow_loop]
      rw [if_neg hlt]

/-- The grow loop terminates on every table with at least one bucket, with
the first capacity `c * 2 ^ j` that brings the load factor to `0.75` or
below. -/
theorem grow_capacity_spec (s c : Nat) (hc : 0 < c) :
    ∃ c1, grow_capacity s c = some c1 ∧ 4 * s ≤ 3 * c1 ∧ (∃ j, c1 = c * 2 ^ j) ∧
      (c1 = c ∨ 3 * c1 < 8 * s) :=
  grow_loop_spec s (4 * s) c hc (by omega)

/-- One doubling is enough when the load factor was at most `0.75` before
the last `_size++`. -/
theorem grow_capacity_double (s c : Nat) (h1 : 3 * c < 4 * s) (h2 : 4 * s ≤ 6 * c) :
    grow_capacity s c = some (2 * c) := by
  unfold grow_capacity
  obtain ⟨n, hn⟩ : ∃ n, 4 * s = n + 1 := ⟨4 * s - 1, by omega⟩
  rw [hn]
  simp only [grow_loop]
  rw [if_pos (by omega)]
  cases n with
  | zero => simp only [grow_loop]; rw [if_neg (by omega)]
  | succ n => simp only [grow_loop]; rw [if_neg (by omega)]

theorem shrink_loop_spec (s : Nat) : ∀ (n c : Nat), c ≤ n → 0 < c →
    0 < shrink_loop s n c ∧ shrink_loop s n c ≤ c ∧
    ¬ (4 * s < shrink_loop s n c ∧ 1 < shrink_loop s n c) ∧
    (shrink_loop s n c = c ∨ 4 * s ≤ 2 * shrink_loop s n c) ∧
    ((∃ a, c = 2 ^ a) → ∃ b, shrink_loop s n c = 2 ^ b) := by
  intro n
  induction n with
  | zero => intro c h1 h2; omega
  | succ n ih =>
    intro c hcn hc
    by_cases hcond : 4 * s < c ∧ 1 < c
    · have hstep : shrink_loop s (n + 1) c = shrink_loop s n (c / 2) := by
        simp only [shrink_loop]; rw [if_pos hcond]
      obtain ⟨h1, h2, h3, h4, h5⟩ := ih (c / 2) (by omega) (by omega)
      rw [hstep]
      refine ⟨h1, by omega, h3, Or.inr ?_, ?_⟩
      · rcases h4 with h4 | h4
        · rw [h4]; omega
        · exact h4
      · rintro ⟨a, ha⟩
        apply h5
        cases a with
        | zero => simp at ha; omega
        | succ a => exact ⟨a, by rw [ha, pow_succ]; simp⟩
    · have hstep : shrink_loop s (n + 1) c = c := by
        simp only [shrink_loop]; rw [if_neg hcond]
      rw [hstep]
      exact ⟨hc, le_refl _, hcond, Or.inl rfl, fun h => h⟩

/-- The shrink loop has left its condition when `shrink_capacity` returns:
the `c` iterations it is given are enough. -/
theorem shrink_capacity_exit (s c : Nat) :
    ¬ (4 * s < shrink_capacity s c ∧ 1 < shrink_capacity s c) := by
  rcases Nat.eq_zero_or_pos c with h | h
  · subst h; simp [shrink_capacity, shrink_loop]
  · exact (shrink_loop_spec s c c (le_refl _) h).2.2.1

theorem shrink_capacity_spec (s c : Nat) (hc : 0 < c) :
    0 < shrink_capacity s c ∧ shrink_capacity s c ≤ c ∧
    (shrink_capacity s c = c ∨ 4 * s ≤ 2 * shrink_capacity s c) ∧
    ((∃ a, c = 2 ^ a) → ∃ b, shrink_capacity s c = 2 ^ b) := by
  obtain ⟨h1, h2, _, h4, h5⟩ := shrink_loop_spec s c c (le_refl _) hc
  exact ⟨h1, h2, h4, h5⟩

end HashMap

/-! ## insert without rehash, and the re-insertion loop -/

namespace HashMap

variable {K V : Type} [DecidableEq K] {hash : K → Nat}

theorem insertWith_present (rh : HashMap K V → Option (HashMap K V)) (m : HashMap K V)
    (k : K) (v : V) (h : contains_key hash m k = true) :
    insertWith hash rh m k v = some (false, m) := by
  simp [insertWith, h]

theorem insertWith_absent (rh : HashMap K V → Option (HashMap K V)) (m : HashMap K V)
    (k : K) (v : V) (h : contains_key hash m k = false) :
    insertWith hash rh m k v =
      if above_upper (pushed hash m k v) then (rh (pushed hash m k v)).map (fun m2 => (true, m2))
      else some (true, pushed hash m k v) := by
  simp [insertWith, h, pushed]

theorem above_upper_eq_false (m : HashMap K V) :
    above_upper m = false ↔ 4 * m._size ≤ 3 * m._capacity := by
  simp [above_upper]

theorem above_upper_eq_true (m : HashMap K V) :
    above_upper m = true ↔ 3 * m._capacity < 4 * m._size := by
  simp [above_upper]

theorem below_lower_eq_false (m : HashMap K V) :
    below_lower m = false ↔ m._capacity ≤ 4 * m._size := by
  simp [below_lower]

theorem below_lower_eq_true (m : HashMap K V) :
    below_lower m = true ↔ 4 * m._size < m._capacity := by
  simp [below_lower]

theorem reinsert_nil (ins : HashMap K V → K → V → Option (Bool × HashMap K V))
    (m : HashMap K V) : reinsert ins [] m = some m := rfl

theorem reinsert_cons (ins : HashMap K V → K → V → Option (Bool × HashMap K V))
    (e : K × V) (es : List (K × V)) (m : HashMap K V) :
    reinsert ins (e :: es) m = ((ins m e.1 e.2).map Prod.snd).bind (reinsert ins es) := by
  simp only [reinsert, List.foldlM_cons]
  rfl

/-- Re-inserting entries with distinct keys, none of them in the table, into
a table that stays at or below the upper boundary: every `insert` appends
its pair, and `rehash` is not called. -/
theorem reinsert_spec : ∀ (es : List (K × V)) (m : HashMap K V), WFc hash m →
    (es.map Prod.fst).Nodup → (∀ e ∈ es, contains_key hash m e.1 = false) →
    4 * (m._size + es.length) ≤ 3 * m._capacity →
    ∃ m1, (∀ rh, reinsert (insertWith hash rh) es m = some m1) ∧ WFc hash m1 ∧
      m1._capacity = m._capacity ∧ m1._map.length = m._map.length ∧
      m1._size = m._size + es.length ∧
      (∀ e, e ∈ m1._map.flatten ↔ e ∈ m._map.flatten ∨ e ∈ es) := by
  intro es
  induction es with
  | nil =>
    intro m h _ _ _
    exact ⟨m, fun _ => rfl, h, rfl, rfl, rfl, by simp⟩
  | cons e es ih =>
    intro m h hnd habs hload
    have he := habs e (List.mem_cons_self _ _)
    simp only [List.map_cons, List.nodup_cons] at hnd
    simp only [List.length_cons] at hload
    have hwf := WFc_pushed h e.1 e.2 he
    have habs2 : ∀ x ∈ es, contains_key hash (pushed hash m e.1 e.2) x.1 = false := by
      intro x hx
      rw [← Bool.not_eq_true, hwf.contains_iff]
      rintro ⟨w, hw⟩
      rcases (mem_pushed h e.1 e.2 _).1 hw with h1 | h1
      · have := (h.contains_iff x.1).2 ⟨w, h1⟩
        rw [habs x (List.mem_cons_of_mem _ hx)] at this
        exact Bool.noConfusion this
      · have hk : x.1 = e.1 := (Prod.mk.inj h1).1
        exact hnd.1 (hk ▸ List.mem_map_of_mem Prod.fst hx)
    have hsz : (pushed hash m e.1 e.2)._size = m._size + 1 := rfl
    have hcap : (pushed hash m e.1 e.2)._capacity = m._capacity := rfl
    obtain ⟨m1, h1, h2, h3, h4, h5, h6⟩ := ih (pushed hash m e.1 e.2) hwf hnd.2 habs2
      (by rw [hsz, hcap]; omega)
    refine ⟨m1, ?_, h2, by rw [h3, hcap], ?_, by rw [h5, hsz, List.length_cons]; omega, ?_⟩
    · intro rh
      rw [reinsert_cons, insertWith_absent rh m e.1 e.2 he]
      have : above_upper (pushed hash m e.1 e.2) = false := by
        rw [above_upper_eq_false, hsz, hcap]; omega
      rw [this]
      simpa using h1 rh
    · rw [h4]; simp [pushed]
    · intro x
      rw [h6, mem_pushed h, List.mem_cons]
      constructor
      · rintro ((h7 | h7) | h7)
        · exact Or.inl h7
        · exact Or.inr (Or.inl h7)
        · exact Or.inr (Or.inr h7)
      · rintro (h7 | h7 | h7)
        · exact Or.inl (Or.inl h7)
        · exact Or.inl (Or.inr h7)
        · exact Or.inr h7

theorem contains_key_fresh (c : Nat) (k : K) :
    contains_key hash (fresh c : HashMap K V) k = false := by
  simp [contains_key, bucket, fresh, getD_replicate_nil]

/-- Re-inserting all entries of a well-formed table into a fresh table of
`c` buckets that is large enough for them. -/
theorem reinsert_fresh {m : HashMap K V} (h : WFc hash m) (c : Nat) (hc : 0 < c)
    (hload : 4 * m._size ≤ 3 * c) :
    ∃ m1, (∀ rh, reinsert (insertWith hash rh) (entries_of m._map m._capacity) (fresh c)
        = some m1) ∧ WFc hash m1 ∧ m1._capacity = c ∧ m1._map.length = c ∧
      m1._size = m._size ∧ (∀ e, e ∈ m1._map.flatten ↔ e ∈ m._map.flatten) := by
  have hent : entries_of m._map m._capacity = m._map.flatten := h.entries_eq
  rw [hent]
  obtain ⟨m1, h1, h2, h3, h4, h5, h6⟩ := @reinsert_spec K V _ hash m._map.flatten (fresh c)
    (WFc_fresh c hc) h.nodup_keys (fun e _ => contains_key_fresh c e.1)
    (by rw [← h.size_eq]; simpa [fresh] using hload)
  refine ⟨m1, h1, h2, h3, by simpa [fresh] using h4, ?_, ?_⟩
  · rw [h5, h.size_eq]; simp [fresh]
  · intro e; rw [h6]; simp [fresh, flatten_replicate_nil]

end HashMap

/-! ## rehash, insert and erase on well-formed tables -/

namespace HashMap

variable {K V : Type} [DecidableEq K] {hash : K → Nat}

/-- A call of `rehash()` on a well-formed table that is above the upper or
below the lower boundary returns, whatever the nested calls of `rehash`
would do: the nested `insert`s never reach their `rehash()`. -/
theorem rehash_spec {m : HashMap K V} (h : WFc hash m)
    (hcall : above_upper m = true ∨ below_lower m = true) :
    ∃ m1, (∀ rh, rehashWith (insertWith hash rh) m = some m1) ∧ WFc hash m1 ∧
      m1._map.length = m1._capacity ∧ m1._size = m._size ∧
      (∀ e, e ∈ m1._map.flatten ↔ e ∈ m._map.flatten) ∧
      4 * m1._size ≤ 3 * m1._capacity ∧
      (above_upper m = true →
        grow_capacity m._size m._capacity = some m1._capacity ∧
        m1._capacity ≤ 4 * m1._size) ∧
      (below_lower m = true → m1._capacity = shrink_capacity m._size m._capacity) := by
  by_cases hup : above_upper m = true
  · obtain ⟨c1, hc1, hle, ⟨j, hj⟩, hfirst⟩ := grow_capacity_spec m._size m._capacity h.cap_pos
    have hc1pos : 0 < c1 := by rw [hj]; exact Nat.mul_pos h.cap_pos (Nat.pos_pow_of_pos j (by decide))
    obtain ⟨m1, h1, h2, h3, h4, h5, h6⟩ := reinsert_fresh h c1 hc1pos hle
    have hup2 := (above_upper_eq_true m).1 hup
    have hlow : below_lower m1 = false := by
      rw [below_lower_eq_false, h3, h5]
      rcases hfirst with hf | hf
      · omega
      · omega
    have hnl : below_lower m = false := by
      rw [below_lower_eq_false]; have := h.cap_pos; omega
    refine ⟨m1, ?_, h2, by rw [h4, h3], h5, h6, by rw [h3, h5]; exact hle,
      fun _ => ⟨by rw [h3]; exact hc1, (below_lower_eq_false m1).1 hlow⟩,
      fun hl => by rw [hnl] at hl; exact Bool.noConfusion hl⟩
    intro rh
    have := h1 rh
    simp only [fresh] at this
    simp only [rehashWith, hup, if_true, hc1, Option.some_bind, Option.bind_eq_bind, this, hlow]
    simp
  · have hup2 : above_upper m = false := by simpa using hup
    have hlow : below_lower m = true := by
      rcases hcall with h1 | h1
      · exact absurd h1 hup
      · exact h1
    have hlow2 := (below_lower_eq_true m).1 hlow
    obtain ⟨hpos, hle, hor, _⟩ := shrink_capacity_spec m._size m._capacity h.cap_pos
    have hexit := shrink_capacity_exit m._size m._capacity
    have hload : 4 * m._size ≤ 3 * shrink_capacity m._size m._capacity := by
      rcases hor with hf | hf
      · rw [hf] at hexit; omega
      · omega
    obtain ⟨m1, h1, h2, h3, h4, h5, h6⟩ := reinsert_fresh h _ hpos hload
    refine ⟨m1, ?_, h2, by rw [h4, h3], h5, h6, by rw [h3, h5]; exact hload,
      fun hu => by rw [hup2] at hu; exact Bool.noConfusion hu, fun _ => h3⟩
    intro rh
    have := h1 rh
    simp only [fresh] at this
    simp only [rehashWith, hup2]
    simp [hlow, this]

theorem rehashF_succ (fuel : Nat) (m : HashMap K V) :
    rehashF hash (fuel + 1) m = rehashWith (insertWith hash (rehashF hash fuel)) m := rfl

/-- What `insert` does with a key that is absent from a table satisfying
the invariant. -/
theorem insert_absent_spec {m : HashMap K V} (h : Inv hash m) (k : K) (v : V)
    (habs : contains_key hash m k = false) :
    ∃ m1, (∀ fuel, insert hash (fuel + 1) m k v = some (true, m1)) ∧
      (∀ r, insert hash 0 m k v = some r → r = (true, m1)) ∧
      Inv hash m1 ∧ m1._size = m._size + 1 ∧
      (∀ e, e ∈ m1._map.flatten ↔ e ∈ m._map.flatten ∨ e = (k, v)) ∧
      (m1._capacity = m._capacity ∨
        (3 * m._capacity < 4 * (m._size + 1) ∧ m1._capacity = 2 * m._capacity)) := by
  have hwf := WFc_pushed h.wf k v habs
  have hsz : (pushed hash m k v)._size = m._size + 1 := rfl
  have hcap : (pushed hash m k v)._capacity = m._capacity := rfl
  by_cases hup : above_upper (pushed hash m k v) = true
  · obtain ⟨m1, h1, h2, h3, h4, h5, h6, h7, _⟩ := rehash_spec hwf (Or.inl hup)
    have hup2 := (above_upper_eq_true _).1 hup
    rw [hsz, hcap] at hup2
    have hdouble := grow_capacity_double (m._size + 1) m._capacity hup2
      (by have := h.upper; have := h.wf.cap_pos; omega)
    have hc : m1._capacity = 2 * m._capacity := by
      have := (h7 hup).1
      rw [hsz, hcap, hdouble] at this
      exact (Option.some.inj this).symm
    refine ⟨m1, ?_, ?_, ⟨h2, h6, ?_⟩, by rw [h4, hsz], ?_, Or.inr ⟨hup2, hc⟩⟩
    · intro fuel
      simp only [insert]
      rw [insertWith_absent _ m k v habs, hup, if_pos rfl, rehashF_succ, h1]
      rfl
    · intro r hr
      simp only [insert] at hr
      rw [insertWith_absent _ m k v habs, hup, if_pos rfl] at hr
      simp [rehashF] at hr
    · obtain ⟨n, hn⟩ := h.pow2
      exact ⟨n + 1, by rw [hc, hn, pow_succ]; ring⟩
    · intro e; rw [h5, mem_pushed h.wf]
  · have hup2 : above_upper (pushed hash m k v) = false := by simpa using hup
    have hall : ∀ rh, insertWith hash rh m k v = some (true, pushed hash m k v) := by
      intro rh
      rw [insertWith_absent _ m k v habs, hup2]
      rfl
    refine ⟨pushed hash m k v, fun fuel => hall _, ?_, ⟨hwf, (above_upper_eq_false _).1 hup2,
      h.pow2⟩, rfl, mem_pushed h.wf k v, Or.inl rfl⟩
    intro r hr
    simp only [insert] at hr
    rw [hall] at hr
    exact (Option.some.inj hr).symm

theorem erase_absent (fuel : Nat) (m : HashMap K V) (k : K)
    (h : contains_key hash m k = false) : erase hash fuel m k = some (false, m) := by
  simp [erase, h]

theorem erase_present (fuel : Nat) (m : HashMap K V) (k : K)
    (h : contains_key hash m k = true) :
    erase hash fuel m k =
      if below_lower (erased hash m k) then
        (rehashF hash fuel (erased hash m k)).map (fun m2 => (true, m2))
      else some (true, erased hash m k) := by
  simp [erase, h, erased]

/-- What `erase` does with a key that is present in a table satisfying the
invariant. -/
theorem erase_present_spec {m : HashMap K V} (h : Inv hash m) (k : K)
    (hpres : contains_key hash m k = true) :
    ∃ m1, (∀ fuel, erase hash (fuel + 1) m k = some (true, m1)) ∧
      (∀ r, erase hash 0 m k = some r → r = (true, m1)) ∧
      Inv hash m1 ∧ m1._size + 1 = m._size ∧
      (∀ e, e ∈ m1._map.flatten ↔ e ∈ m._map.flatten ∧ e.1 ≠ k) ∧
      m1._capacity ≤ m._capacity ∧
      (m1._capacity ≤ 4 * m1._size ∨ m1._capacity = 1) := by
  obtain ⟨hwf, hsz⟩ := WFc_erased h.wf k hpres
  have hcap : (erased hash m k)._capacity = m._capacity := rfl
  by_cases hlow : below_lower (erased hash m k) = true
  · obtain ⟨m1, h1, h2, h3, h4, h5, h6, _, h8⟩ := rehash_spec hwf (Or.inr hlow)
    have hc := h8 hlow
    obtain ⟨hpos, hle, _, hp2⟩ := shrink_capacity_spec (erased hash m k)._size
      (erased hash m k)._capacity hwf.cap_pos
    have hexit := shrink_capacity_exit (erased hash m k)._size (erased hash m k)._capacity
    rw [← hc] at hpos hle hexit hp2
    refine ⟨m1, ?_, ?_, ⟨h2, h6, hp2 h.pow2⟩, by rw [h4]; exact hsz, ?_, by rw [← hcap]; exact hle,
      ?_⟩
    · intro fuel
      rw [erase_present _ m k hpres, hlow, if_pos rfl, rehashF_succ, h1]
      rfl
    · intro r hr
      rw [erase_present _ m k hpres, hlow, if_pos rfl] at hr
      simp [rehashF] at hr
    · intro e; rw [h5, mem_erased h.wf]
    · rw [h4]; omega
  · have hlow2 : below_lower (erased hash m k) = false := by simpa using hlow
    have hall : ∀ fuel, erase hash fuel m k = some (true, erased hash m k) := by
      intro fuel
      rw [erase_present _ m k hpres, hlow2]
      rfl
    have hl := (below_lower_eq_false _).1 hlow2
    refine ⟨erased hash m k, fun fuel => hall _, ?_, ⟨hwf, ?_, h.pow2⟩, hsz, mem_erased h.wf k,
      le_refl _, Or.inl hl⟩
    · intro r hr
      rw [hall] at hr
      exact (Option.some.inj hr).symm
    · have := h.upper; rw [hcap]; omega

end HashMap

/-! ## Lookups -/

namespace HashMap

variable {K V : Type} [DecidableEq K] {hash : K → Nat}

theorem WFc.contains_of_mem {m : HashMap K V} (h : WFc hash m) {k : K} {v : V}
    (hv : (k, v) ∈ m._map.flatten) : contains_key hash m k = true :=
  (h.contains_iff k).2 ⟨v, hv⟩

theorem WFc.operator_index_const_of_mem [Inhabited V] {m : HashMap K V} (h : WFc hash m)
    {k : K} {v : V} (hv : (k, v) ∈ m._map.flatten) : operator_index_const hash m k = v := by
  simp [operator_index_const, h.contains_of_mem hv, h.find_eq hv]

theorem WFc.at_const_of_mem [Inhabited V] {m : HashMap K V} (h : WFc hash m)
    {k : K} {v : V} (hv : (k, v) ∈ m._map.flatten) : at_const hash m k = .ok v := by
  simp [at_const, h.contains_of_mem hv, h.operator_index_const_of_mem hv]

theorem WFc.index_loop_of_mem {m : HashMap K V} (h : WFc hash m)
    {k : K} {v : V} (hv : (k, v) ∈ m._map.flatten) : index_loop hash m k = (.ok v, m) := by
  simp [index_loop, h.find_eq hv]

theorem WFc.at_mut_of_mem {m : HashMap K V} (h : WFc hash m)
    {k : K} {v : V} (hv : (k, v) ∈ m._map.flatten) : at_mut hash m k = (.ok v, m) := by
  simp [at_mut, h.contains_of_mem hv, h.index_loop_of_mem hv]

/-! ## clear and the copy constructor -/

theorem flatten_eq_of_getD {α : Type} : ∀ (L1 L2 : List (List α)),
    (∀ j, L1.getD j [] = L2.getD j []) → L1.flatten = L2.flatten := by
  have nil_case : ∀ (L : List (List α)), (∀ j, L.getD j [] = []) → L.flatten = [] := by
    intro L hL
    rw [List.flatten_eq_nil_iff]
    intro b hb
    obtain ⟨i, hi, rfl⟩ := List.getElem_of_mem hb
    have := hL i
    simpa [List.getD_eq_getElem?_getD, List.getElem?_eq_getElem hi] using this
  intro L1
  induction L1 with
  | nil =>
    intro L2 h
    rw [nil_case L2 (fun j => by rw [← h j]; simp)]
    rfl
  | cons b L1 ih =>
    intro L2 h
    cases L2 with
    | nil => rw [nil_case (b :: L1) (fun j => by rw [h j]; simp)]; rfl
    | cons b2 L2 =>
      have h0 : b = b2 := by simpa using h 0
      have ht := ih L2 (fun j => by simpa using h (j + 1))
      rw [List.flatten_cons, List.flatten_cons, h0, ht]

theorem WFc_of_bucket_eq {m m1 : HashMap K V} (h : WFc hash m)
    (hcap : m1._capacity = m._capacity) (hlen : m1._capacity ≤ m1._map.length)
    (hsz : m1._size = m._size) (hb : ∀ j, bucket m1 j = bucket m j) :
    WFc hash m1 ∧ m1._map.flatten = m._map.flatten := by
  have hfl : m1._map.flatten = m._map.flatten := flatten_eq_of_getD _ _ hb
  refine ⟨⟨by rw [hcap]; exact h.cap_pos, hlen, ?_, ?_, by rw [hsz, hfl]; exact h.size_eq⟩, hfl⟩
  · intro i e he
    rw [hb] at he
    rw [hash_function_congr hcap]
    exact h.place i e he
  · intro i
    rw [hb]; exact h.nodup i

theorem bucket_clear {m : HashMap K V} (h : WFc hash m) (j : Nat) :
    bucket (clear m) j = [] := by
  have hlen := h.len_ge
  simp only [bucket, clear, List.getD_eq_getElem?_getD, List.getElem?_append, List.length_map,
    List.length_take, Nat.min_eq_left hlen]
  by_cases hj : j < m._capacity
  · rw [if_pos hj, List.getElem?_map, List.getElem?_take_of_lt hj,
      List.getElem?_eq_getElem (by omega)]
    rfl
  · rw [if_neg hj, List.getElem?_drop]
    have := h.bucket_eq_nil (m._capacity + (j - m._capacity)) (by omega)
    simpa [bucket, List.getD_eq_getElem?_getD] using this

theorem Inv_clear {m : HashMap K V} (h : Inv hash m) :
    Inv hash (clear m) ∧ (clear m)._map.flatten = [] := by
  have hfl : (clear m)._map.flatten = [] := by
    have := flatten_eq_of_getD (clear m)._map [] (fun j => by
      have := bucket_clear h.wf j
      simpa [bucket] using this)
    simpa using this
  refine ⟨⟨⟨h.wf.cap_pos, ?_, ?_, ?_, ?_⟩, ?_, h.pow2⟩, hfl⟩
  · have := h.wf.len_ge
    simp only [clear, List.length_append, List.length_map, List.length_take, List.length_drop]
    omega
  · intro i e he
    rw [bucket_clear h.wf] at he
    simp at he
  · intro i
    rw [bucket_clear h.wf]
    simp
  · rw [hfl]; rfl
  · simp [clear]

theorem copy_loop_spec (rhs_map : List (List (K × V))) : ∀ (n i : Nat) (t t1 : List (List (K × V))),
    copy_loop rhs_map n i t = some t1 →
    t1.length = t.length ∧ (0 < n → i + n ≤ t.length) ∧
    ∀ j, t1.getD j [] = if i ≤ j ∧ j < i + n then rhs_map.getD j [] else t.getD j [] := by
  intro n
  induction n with
  | zero =>
    intro i t t1 h
    simp only [copy_loop] at h
    cases h
    refine ⟨rfl, by omega, ?_⟩
    intro j
    rw [if_neg (by omega)]
  | succ n ih =>
    intro i t t1 h
    simp only [copy_loop] at h
    by_cases hi : i < t.length
    · rw [if_pos hi] at h
      obtain ⟨h1, h2, h3⟩ := ih (i + 1) _ t1 h
      rw [List.length_set] at h1 h2
      refine ⟨h1, ?_, ?_⟩
      · intro _
        rcases Nat.eq_zero_or_pos n with hn | hn
        · omega
        · have := h2 hn; omega
      · intro j
        rw [h3 j, getD_set_buckets]
        by_cases hj : i = j
        · subst hj
          rw [if_neg (by omega), if_pos ⟨rfl, hi⟩, if_pos (by omega)]
        · by_cases hj2 : i + 1 ≤ j ∧ j < i + 1 + n
          · rw [if_pos hj2, if_pos (by omega)]
          · rw [if_neg hj2, if_neg (by omega)]
            by_cases hj3 : i ≤ j ∧ j < i + (n + 1)
            · omega
            · rw [if_neg hj3]
    · rw [if_neg hi] at h
      exact Option.noConfusion h

/-- The copy constructor succeeds exactly on sources of at most
`START_CAPACITY` buckets (for larger ones it writes behind the array it
allocated); the copy then has the members and the buckets of the source. -/
theorem mk_copy_spec {rhs m : HashMap K V} (h : mk_copy rhs = some m) :
    m._size = rhs._size ∧ m._capacity = rhs._capacity ∧ m._map.length = START_CAPACITY ∧
    rhs._capacity ≤ START_CAPACITY ∧
    ∀ j, bucket m j = if j < rhs._capacity then bucket rhs j else [] := by
  simp only [mk_copy, Option.map_eq_some'] at h
  obtain ⟨t, ht, rfl⟩ := h
  obtain ⟨h1, h2, h3⟩ := copy_loop_spec _ _ _ _ _ ht
  refine ⟨rfl, rfl, by simpa using h1, ?_, ?_⟩
  · rcases Nat.eq_zero_or_pos rhs._capacity with hn | hn
    · omega
    · have := h2 hn; simpa using this
  · intro j
    simp only [bucket]
    rw [h3 j, getD_replicate_nil]
    simp

theorem Inv_mk_copy {rhs m : HashMap K V} (hinv : Inv hash rhs) (h : mk_copy rhs = some m) :
    Inv hash m ∧ m._map.flatten = rhs._map.flatten := by
  obtain ⟨h1, h2, h3, h4, h5⟩ := mk_copy_spec h
  have hb : ∀ j, bucket m j = bucket rhs j := by
    intro j
    rw [h5 j]
    split
    · rfl
    · exact (hinv.wf.bucket_eq_nil j (by omega)).symm
  obtain ⟨hw, hf⟩ := WFc_of_bucket_eq hinv.wf h2 (by rw [h2, h3]; exact h4) h1 hb
  exact ⟨⟨hw, by rw [h1, h2]; exact hinv.upper, by rw [h2]; exact hinv.pow2⟩, hf⟩

end HashMap

/-! ## The non-const operator[] and stores through its reference -/

namespace HashMap

variable {K V : Type} [DecidableEq K] {hash : K → Nat}

theorem modify_key_spec (k : K) (v : V) : ∀ (b : List (K × V)),
    (List.modify (fun e => (e.1, v)) (b.findIdx (fun e => e.1 == k)) b).map Prod.fst
      = b.map Prod.fst ∧
    ((b.map Prod.fst).Nodup → ∀ e,
      (e ∈ List.modify (fun e => (e.1, v)) (b.findIdx (fun e => e.1 == k)) b ↔
        (e ∈ b ∧ e.1 ≠ k) ∨ (e = (k, v) ∧ ∃ w, (k, w) ∈ b))) := by
  intro b
  induction b with
  | nil => simp [List.modify]
  | cons x b ih =>
    by_cases hx : x.1 = k
    · have hidx : (x :: b).findIdx (fun e => e.1 == k) = 0 := by
        simp [List.findIdx_cons, hx]
      rw [hidx, List.modify_zero_cons]
      refine ⟨by simp, ?_⟩
      intro hnd e
      simp only [List.map_cons, List.nodup_cons] at hnd
      have hnk : ∀ y ∈ b, y.1 ≠ k := by
        intro y hy hyk
        exact hnd.1 (by rw [hx, ← hyk]; exact List.mem_map_of_mem Prod.fst hy)
      simp only [List.mem_cons, hx]
      constructor
      · rintro (h | h)
        · exact Or.inr ⟨h, x.2, Or.inl (by rw [← hx])⟩
        · exact Or.inl ⟨Or.inr h, hnk e h⟩
      · rintro (⟨h | h, hne⟩ | ⟨h, _⟩)
        · exact absurd (h ▸ hx) hne
        · exact Or.inr h
        · exact Or.inl h
    · have hidx : (x :: b).findIdx (fun e => e.1 == k) = b.findIdx (fun e => e.1 == k) + 1 := by
        have : (x.1 == k) = false := by simpa using hx
        simp [List.findIdx_cons, this]
      rw [hidx, List.modify_succ_cons]
      refine ⟨by simp [ih.1], ?_⟩
      intro hnd e
      simp only [List.map_cons, List.nodup_cons] at hnd
      simp only [List.mem_cons]
      rw [ih.2 hnd.2 e]
      constructor
      · rintro (h | ⟨h, hne⟩ | ⟨h, w, hw⟩)
        · exact Or.inl ⟨Or.inl h, h ▸ hx⟩
        · exact Or.inl ⟨Or.inr h, hne⟩
        · exact Or.inr ⟨h, w, Or.inr hw⟩
      · rintro (⟨h | h, hne⟩ | ⟨h, w, hw | hw⟩)
        · exact Or.inl h
        · exact Or.inr (Or.inl ⟨h, hne⟩)
        · exact absurd (congrArg Prod.fst hw).symm hx
        · exact Or.inr (Or.inr ⟨h, w, hw⟩)

theorem bucket_store {m : HashMap K V} (h : WFc hash m) (k : K) (v : V) (j : Nat) :
    bucket (store hash m k v) j =
      if hash_function hash m k = j then
        List.modify (fun e => (e.1, v)) ((bucket m j).findIdx (fun e => e.1 == k)) (bucket m j)
      else bucket m j := by
  simp only [bucket, store, getD_set_buckets]
  by_cases hj : hash_function hash m k = j
  · subst hj; simp [h.index_lt k]
  · simp [hj]

theorem WFc_store {m : HashMap K V} (h : WFc hash m) (k : K) (v w : V)
    (hw : (k, w) ∈ m._map.flatten) :
    WFc hash (store hash m k v) ∧
    (∀ e, e ∈ (store hash m k v)._map.flatten ↔ (e ∈ m._map.flatten ∧ e.1 ≠ k) ∨ e = (k, v)) := by
  have hkeys : ∀ j, (bucket (store hash m k v) j).map Prod.fst = (bucket m j).map Prod.fst := by
    intro j
    rw [bucket_store h]
    split
    · exact (modify_key_spec k v _).1
    · rfl
  have hmem : ∀ e, e ∈ (store hash m k v)._map.flatten ↔
      (e ∈ m._map.flatten ∧ e.1 ≠ k) ∨ e = (k, v) := by
    intro e
    rw [mem_flatten_iff_getD, mem_flatten_iff_getD]
    constructor
    · rintro ⟨j, hj⟩
      have hb := bucket_store h k v j
      simp only [bucket] at hb
      rw [hb] at hj
      split at hj
      · rcases ((modify_key_spec k v _).2 (h.nodup j) e).1 hj with h1 | h1
        · exact Or.inl ⟨⟨j, h1.1⟩, h1.2⟩
        · exact Or.inr h1.1
      · rename_i hne
        refine Or.inl ⟨⟨j, hj⟩, ?_⟩
        intro hk
        have := h.place j e hj
        rw [hk] at this
        exact hne this
    · rintro (⟨⟨j, hj⟩, hk⟩ | rfl)
      · refine ⟨j, ?_⟩
        have hb := bucket_store h k v j
        simp only [bucket] at hb
        rw [hb]
        split
        · exact ((modify_key_spec k v _).2 (h.nodup j) e).2 (Or.inl ⟨hj, hk⟩)
        · exact hj
      · refine ⟨hash_function hash m k, ?_⟩
        have hb := bucket_store h k v (hash_function hash m k)
        rw [if_pos rfl] at hb
        simp only [bucket] at hb
        rw [hb]
        exact ((modify_key_spec k v _).2 (h.nodup _) (k, v)).2
          (Or.inr ⟨rfl, w, (h.mem_iff_bucket (k, w)).1 hw⟩)
  have hlen : (store hash m k v)._map.flatten.length = m._map.flatten.length := by
    have := length_flatten_set m._map (hash_function hash m k)
      (List.modify (fun e => (e.1, v))
        ((bucket m (hash_function hash m k)).findIdx (fun e => e.1 == k))
        (bucket m (hash_function hash m k))) (h.index_lt k)
    simp only [List.length_modify, bucket] at this
    simp only [store, bucket]
    omega
  refine ⟨⟨h.cap_pos, by simpa [store] using h.len_ge, ?_, ?_, ?_⟩, hmem⟩
  · intro i e he
    have hc : hash_function hash (store hash m k v) e.1 = hash_function hash m e.1 :=
      hash_function_congr rfl _
    rw [hc]
    have h1 : e.1 ∈ (bucket (store hash m k v) i).map Prod.fst := List.mem_map_of_mem Prod.fst he
    rw [hkeys] at h1
    obtain ⟨e2, he2, hk⟩ := List.mem_map.1 h1
    rw [← hk]
    exact h.place i e2 he2
  · intro i
    rw [hkeys]; exact h.nodup i
  · rw [hlen]; exact h.size_eq

theorem operator_index_present [Inhabited V] {m : HashMap K V} (h : WFc hash m) (fuel : Nat)
    {k : K} {w : V} (hw : (k, w) ∈ m._map.flatten) :
    operator_index hash fuel m k = some (.ok w, m) := by
  simp [operator_index, h.contains_of_mem hw, h.index_loop_of_mem hw]

theorem operator_index_absent [Inhabited V] (fuel : Nat) (m : HashMap K V) (k : K)
    (habs : contains_key hash m k = false) :
    operator_index hash fuel m k =
      (insert hash fuel m k default).map fun r => at_mut hash r.2 k := by
  simp [operator_index, habs]

/-- What the non-const `operator[]` does with an absent key. -/
theorem operator_index_absent_spec [Inhabited V] {m : HashMap K V} (h : Inv hash m) (k : K)
    (habs : contains_key hash m k = false) :
    ∃ m1, (∀ fuel, operator_index hash (fuel + 1) m k = some (.ok default, m1)) ∧
      (∀ r, operator_index hash 0 m k = some r → r = (.ok default, m1)) ∧
      Inv hash m1 ∧ m1._size = m._size + 1 ∧
      (∀ e, e ∈ m1._map.flatten ↔ e ∈ m._map.flatten ∨ e = (k, default)) := by
  obtain ⟨m1, h1, h2, h3, h4, h5, _⟩ := insert_absent_spec h k (default : V) habs
  have hmem : (k, (default : V)) ∈ m1._map.flatten := (h5 _).2 (Or.inr rfl)
  refine ⟨m1, ?_, ?_, h3, h4, h5⟩
  · intro fuel
    rw [operator_index_absent _ m k habs, h1 fuel]
    simp [h3.wf.at_mut_of_mem hmem]
  · intro r hr
    rw [operator_index_absent _ m k habs] at hr
    rcases hi : insert hash 0 m k (default : V) with _ | r0
    · rw [hi] at hr; simp at hr
    · rw [hi] at hr
      have := h2 r0 hi
      subst this
      simp [h3.wf.at_mut_of_mem hmem] at hr
      exact hr.symm

/-- What the statement `(*this)[key] = value` does. -/
theorem assign_spec [Inhabited V] {m : HashMap K V} (h : Inv hash m) (k : K) (v : V) :
    ∃ m1, (∀ fuel, assign hash (fuel + 1) m k v = some (.ok (), m1)) ∧
      (∀ r, assign hash 0 m k v = some r → r = (.ok (), m1)) ∧
      Inv hash m1 ∧
      (∀ e, e ∈ m1._map.flatten ↔ (e ∈ m._map.flatten ∧ e.1 ≠ k) ∨ e = (k, v)) ∧
      m1._size = (if contains_key hash m k then m._size else m._size + 1) := by
  by_cases hc : contains_key hash m k = true
  · obtain ⟨w, hw⟩ := (h.wf.contains_iff k).1 hc
    obtain ⟨hwf, hmem⟩ := WFc_store h.wf k v w hw
    have hall : ∀ fuel, assign hash fuel m k v = some (.ok (), store hash m k v) := by
      intro fuel
      simp [assign, operator_index_present h.wf fuel hw]
    refine ⟨store hash m k v, fun fuel => hall _, ?_, ⟨hwf, h.upper, h.pow2⟩, hmem, by simp [hc, store]⟩
    intro r hr
    rw [hall] at hr
    exact (Option.some.inj hr).symm
  · have habs : contains_key hash m k = false := by simpa using hc
    obtain ⟨m1, h1, h2, h3, h4, h5⟩ := operator_index_absent_spec h k habs
    have hd : (k, (default : V)) ∈ m1._map.flatten := (h5 _).2 (Or.inr rfl)
    obtain ⟨hwf, hmem⟩ := WFc_store h3.wf k v default hd
    refine ⟨store hash m1 k v, ?_, ?_, ⟨hwf, h3.upper, h3.pow2⟩, ?_, by simp [habs, store, h4]⟩
    · intro fuel
      simp [assign, h1 fuel]
    · intro r hr
      simp only [assign, Option.map_eq_some'] at hr
      obtain ⟨r0, hr0, rfl⟩ := hr
      have := h2 r0 hr0
      subst this
      rfl
    · intro e
      rw [hmem, h5]
      constructor
      · rintro (⟨h6 | h6, hne⟩ | h6)
        · exact Or.inl ⟨h6, hne⟩
        · exact absurd (congrArg Prod.fst h6) hne
        · exact Or.inr h6
      · rintro (⟨h6, hne⟩ | h6)
        · exact Or.inl ⟨Or.inl h6, hne⟩
        · exact Or.inr h6

end HashMap

/-! ## The two-vector constructor -/

namespace HashMap

variable {K V : Type} [DecidableEq K] {hash : K → Nat}

/-- The pair `e` is the last pair of `ps` with its key. -/
theorem last_cons_iff (p e : K × V) (rest : List (K × V)) :
    (∃ l1 l2, p :: rest = l1 ++ e :: l2 ∧ e.1 ∉ l2.map Prod.fst) ↔
      (e = p ∧ e.1 ∉ rest.map Prod.fst) ∨
      (∃ l1 l2, rest = l1 ++ e :: l2 ∧ e.1 ∉ l2.map Prod.fst) := by
  constructor
  · rintro ⟨l1, l2, heq, hn⟩
    cases l1 with
    | nil =>
      simp only [List.nil_append, List.cons.injEq] at heq
      exact Or.inl ⟨heq.1.symm, heq.2 ▸ hn⟩
    | cons x l1 =>
      simp only [List.cons_append, List.cons.injEq] at heq
      exact Or.inr ⟨l1, l2, heq.2, hn⟩
  · rintro (⟨rfl, hn⟩ | ⟨l1, l2, heq, hn⟩)
    · exact ⟨[], rest, rfl, hn⟩
    · exact ⟨p :: l1, l2, by rw [heq]; rfl, hn⟩

theorem exists_last_of_mem_keys : ∀ (ps : List (K × V)) (k : K), k ∈ ps.map Prod.fst →
    ∃ v l1 l2, ps = l1 ++ (k, v) :: l2 ∧ k ∉ l2.map Prod.fst := by
  intro ps
  induction ps with
  | nil => intro k hk; simp at hk
  | cons p rest ih =>
    intro k hk
    by_cases hr : k ∈ rest.map Prod.fst
    · obtain ⟨v, l1, l2, heq, hn⟩ := ih k hr
      exact ⟨v, p :: l1, l2, by rw [heq]; rfl, hn⟩
    · have hp : p.1 = k := by
        simp only [List.map_cons, List.mem_cons] at hk
        rcases hk with h | h
        · exact h.symm
        · exact absurd h hr
      exact ⟨p.2, [], rest, by simp [← hp], hr⟩

theorem assign_all_cons [Inhabited V] (fuel : Nat) (p : K × V) (rest : List (K × V))
    (m : HashMap K V) :
    assign_all hash fuel (p :: rest) m =
      match assign hash fuel m p.1 p.2 with
      | none => none
      | some (.error e, _) => some (.error e)
      | some (.ok _, m1) => assign_all hash fuel rest m1 := by
  cases p; rfl

/-- The assignment loop of the two-vector constructor, started in a state
that satisfies the invariant. -/
theorem assign_all_spec [Inhabited V] : ∀ (ps : List (K × V)) (m : HashMap K V), Inv hash m →
    ∃ m1, (∀ fuel, assign_all hash (fuel + 1) ps m = some (.ok m1)) ∧
      (∀ r, assign_all hash 0 ps m = some r → r = .ok m1) ∧ Inv hash m1 ∧
      (∀ e, e ∈ m1._map.flatten ↔ (e ∈ m._map.flatten ∧ e.1 ∉ ps.map Prod.fst) ∨
        (∃ l1 l2, ps = l1 ++ e :: l2 ∧ e.1 ∉ l2.map Prod.fst)) := by
  intro ps
  induction ps with
  | nil =>
    intro m h
    refine ⟨m, fun _ => rfl, ?_, h, ?_⟩
    · intro r hr
      simp only [assign_all] at hr
      exact (Option.some.inj hr).symm
    · intro e; simp
  | cons p rest ih =>
    intro m h
    obtain ⟨m1, h1, h2, h3, h4, _⟩ := assign_spec h p.1 p.2
    obtain ⟨m2, g1, g2, g3, g4⟩ := ih m1 h3
    refine ⟨m2, ?_, ?_, g3, ?_⟩
    · intro fuel
      rw [assign_all_cons, h1 fuel]
      exact g1 fuel
    · intro r hr
      rw [assign_all_cons] at hr
      rcases ha : assign hash 0 m p.1 p.2 with _ | r0
      · rw [ha] at hr; simp at hr
      · have := h2 r0 ha
        subst this
        rw [ha] at hr
        exact g2 r hr
    · intro e
      rw [g4, h4, last_cons_iff]
      simp only [List.map_cons, List.mem_cons, not_or]
      constructor
      · rintro (⟨⟨h5, h6⟩ | h5, h7⟩ | h5)
        · exact Or.inl ⟨h5, h6, h7⟩
        · exact Or.inr (Or.inl ⟨h5, h7⟩)
        · exact Or.inr (Or.inr h5)
      · rintro (⟨h5, h6, h7⟩ | ⟨h5, h7⟩ | h5)
        · exact Or.inl ⟨Or.inl ⟨h5, h6⟩, h7⟩
        · exact Or.inl ⟨Or.inr h5, h7⟩
        · exact Or.inr h5

theorem Inv_mk_default : Inv hash (mk_default : HashMap K V) :=
  ⟨WFc_fresh START_CAPACITY (by decide), by simp [mk_default], ⟨4, rfl⟩⟩

theorem flatten_mk_default : (mk_default : HashMap K V)._map.flatten = [] :=
  flatten_replicate_nil _

/-! ## Every reachable state satisfies the invariant -/

theorem Inv_insert {m m1 : HashMap K V} (h : Inv hash m) {fuel : Nat} {k : K} {v : V} {b : Bool}
    (hr : insert hash fuel m k v = some (b, m1)) : Inv hash m1 := by
  by_cases hc : contains_key hash m k = true
  · simp only [insert] at hr
    rw [insertWith_present _ m k v hc] at hr
    cases hr; exact h
  · have habs : contains_key hash m k = false := by simpa using hc
    obtain ⟨m2, h1, h2, h3, _⟩ := insert_absent_spec h k v habs
    cases fuel with
    | zero => have := h2 _ hr; cases this; exact h3
    | succ fuel => rw [h1 fuel] at hr; cases hr; exact h3

theorem Inv_erase {m m1 : HashMap K V} (h : Inv hash m) {fuel : Nat} {k : K} {b : Bool}
    (hr : erase hash fuel m k = some (b, m1)) : Inv hash m1 := by
  by_cases hc : contains_key hash m k = true
  · obtain ⟨m2, h1, h2, h3, _⟩ := erase_present_spec h k hc
    cases fuel with
    | zero => have := h2 _ hr; cases this; exact h3
    | succ fuel => rw [h1 fuel] at hr; cases hr; exact h3
  · have habs : contains_key hash m k = false := by simpa using hc
    rw [erase_absent _ m k habs] at hr
    cases hr; exact h

theorem Inv_operator_index [Inhabited V] {m m1 : HashMap K V} (h : Inv hash m) {fuel : Nat}
    {k : K} {r : Except Exception V}
    (hr : operator_index hash fuel m k = some (r, m1)) : Inv hash m1 := by
  by_cases hc : contains_key hash m k = true
  · obtain ⟨w, hw⟩ := (h.wf.contains_iff k).1 hc
    rw [operator_index_present h.wf fuel hw] at hr
    cases hr; exact h
  · have habs : contains_key hash m k = false := by simpa using hc
    obtain ⟨m2, h1, h2, h3, _⟩ := operator_index_absent_spec h k habs
    cases fuel with
    | zero => have := h2 _ hr; cases this; exact h3
    | succ fuel => rw [h1 fuel] at hr; cases hr; exact h3

theorem Inv_assign [Inhabited V] {m m1 : HashMap K V} (h : Inv hash m) {fuel : Nat}
    {k : K} {v : V} {r : Except Exception Unit}
    (hr : assign hash fuel m k v = some (r, m1)) : Inv hash m1 := by
  obtain ⟨m2, h1, h2, h3, _⟩ := assign_spec h k v
  cases fuel with
  | zero => have := h2 _ hr; cases this; exact h3
  | succ fuel => rw [h1 fuel] at hr; cases hr; exact h3

theorem Inv_mk_vectors [Inhabited V] {fuel : Nat} {keys : List K} {values : List V}
    {m : HashMap K V} (hr : mk_vectors hash fuel keys values = some (.ok m)) : Inv hash m := by
  simp only [mk_vectors] at hr
  split at hr
  · cases hr
  · obtain ⟨m2, h1, h2, h3, _⟩ := @assign_all_spec K V _ hash _ (keys.zip values) mk_default
      Inv_mk_default
    cases fuel with
    | zero => have := h2 _ hr; cases this; exact h3
    | succ fuel => rw [h1 fuel] at hr; cases hr; exact h3

/-- Every reachable state satisfies the invariant. -/
theorem Reachable.inv [Inhabited V] {m : HashMap K V} (h : Reachable hash m) : Inv hash m := by
  induction h with
  | default => exact Inv_mk_default
  | vectors fuel keys values m hr => exact Inv_mk_vectors hr
  | copy rhs m _ hr ih => exact (Inv_mk_copy ih hr).1
  | insert fuel m key value b m1 _ hr ih => exact Inv_insert ih hr
  | erase fuel m key b m1 _ hr ih => exact Inv_erase ih hr
  | clear m _ ih => exact (Inv_clear ih).1
  | index fuel m key r m1 _ hr ih => exact Inv_operator_index ih hr
  | assign fuel m key value r m1 _ hr ih => exact Inv_assign ih hr

end HashMap

/-! ## The claims -/

namespace HashMap

variable {K V : Type} [DecidableEq K] {hash : K → Nat}

/-- C1: on every reachable map, `insert(k, v)` of a key that is not present
returns true (given a nesting budget of at least one `rehash`), and afterwards
`contains_key(k)` is true and `at(k)` is `v`; the rehash that the insertion
may trigger is part of the call. -/
theorem C1_insert_absent [Inhabited V] (m : HashMap K V) (hm : Reachable hash m) (k : K) (v : V)
    (fuel : Nat) (hfuel : 1 ≤ fuel) (habs : contains_key hash m k = false) :
    ∃ m1, insert hash fuel m k v = some (true, m1) ∧ contains_key hash m1 k = true ∧
      at_const hash m1 k = .ok v := by
  obtain ⟨m1, h1, _, h3, _, h5, _⟩ := insert_absent_spec hm.inv k v habs
  obtain ⟨f, rfl⟩ : ∃ f, fuel = f + 1 := ⟨fuel - 1, by omega⟩
  have hmem : (k, v) ∈ m1._map.flatten := (h5 _).2 (Or.inr rfl)
  exact ⟨m1, h1 f, h3.wf.contains_of_mem hmem, h3.wf.at_const_of_mem hmem⟩

/-- C2: on every map, `insert(k, v)` of a key that is present returns false
and leaves the whole state (`_size`, `_capacity` and every bucket, hence
the value stored under `k`) as it was. -/
theorem C2_insert_present (m : HashMap K V) (k : K) (v : V) (fuel : Nat)
    (hpres : contains_key hash m k = true) :
    insert hash fuel m k v = some (false, m) :=
  insertWith_present _ m k v hpres

/-- C3: on every reachable map, `erase(k)` of a key that is present returns
true, afterwards `contains_key(k)` is false and `size()` is one less; the
shrinking rehash that the call may trigger is part of the call. -/
theorem C3_erase_present [Inhabited V] (m : HashMap K V) (hm : Reachable hash m) (k : K)
    (fuel : Nat) (hfuel : 1 ≤ fuel) (hpres : contains_key hash m k = true) :
    ∃ m1, erase hash fuel m k = some (true, m1) ∧ contains_key hash m1 k = false ∧
      size m1 + 1 = size m := by
  obtain ⟨m1, h1, _, h3, h4, h5, _⟩ := erase_present_spec hm.inv k hpres
  obtain ⟨f, rfl⟩ : ∃ f, fuel = f + 1 := ⟨fuel - 1, by omega⟩
  refine ⟨m1, h1 f, ?_, h4⟩
  rw [← Bool.not_eq_true, h3.wf.contains_iff]
  rintro ⟨w, hw⟩
  exact ((h5 _).1 hw).2 rfl

end HashMap

/-- C4: `erase` of an absent key returns false on the base map and throws
`InvalidKey` on a Dictionary, in both cases with the state (size, capacity,
every bucket) as it was; and `Dictionary::erase` throws only when the key is
absent. -/
theorem C4_erase_absent {K V : Type} [DecidableEq K] (hash : K → Nat) (m : HashMap K V) (k : K)
    (hashS : String → Nat) (d : Dictionary) (key : String) (fuel : Nat)
    (habs : HashMap.contains_key hash m k = false)
    (habsD : HashMap.contains_key hashS d key = false) :
    HashMap.erase hash fuel m k = some (false, m) ∧
    Dictionary.erase hashS fuel d key = some (.error .InvalidKey, d) ∧
    (∀ (d2 : Dictionary) (key2 : String) (fuel2 : Nat) (e : Exception) (d3 : Dictionary),
      Dictionary.erase hashS fuel2 d2 key2 = some (.error e, d3) →
        HashMap.contains_key hashS d2 key2 = false) := by
  refine ⟨HashMap.erase_absent _ m k habs, ?_, ?_⟩
  · simp [Dictionary.erase, HashMap.erase_absent _ d key habsD]
  · intro d2 key2 fuel2 e d3 h
    by_contra hc
    have hc : HashMap.contains_key hashS d2 key2 = true := by simpa using hc
    rw [Dictionary.erase, HashMap.erase_present _ d2 key2 hc] at h
    split at h
    · rcases hr : HashMap.rehashF hashS fuel2 (HashMap.erased hashS d2 key2) with _ | m2
      · rw [hr] at h; simp at h
      · rw [hr] at h; simp at h
    · simp at h

namespace HashMap

/-- The map with one bucket is reached by `insert(5, 7)` and `erase(5)` on a
default-constructed map, the erase shrinking the table from 16 buckets to 1. -/
theorem reachable_one_bucket : Reachable hash_int sample_one_bucket :=
  Reachable.erase 1 sample_one_entry 5 true _
    (Reachable.insert 1 mk_default 5 7 true _ Reachable.default (by decide)) (by decide)

theorem reachable_one_entry : Reachable hash_int sample_one_entry :=
  Reachable.insert 1 mk_default 5 7 true _ Reachable.default (by decide)

/-- C1 at the one-bucket map: `insert(5, 7)` makes the load factor 1 and
the rehash doubles the table. -/
theorem C1_witness :
    Reachable hash_int sample_one_bucket ∧ 1 ≤ 1 ∧
    contains_key hash_int sample_one_bucket 5 = false ∧
    ∃ m1, insert hash_int 1 sample_one_bucket 5 7 = some (true, m1) ∧
      contains_key hash_int m1 5 = true ∧ at_const hash_int m1 5 = .ok 7 :=
  ⟨reachable_one_bucket, by decide, by decide,
    C1_insert_absent _ reachable_one_bucket 5 7 1 (by decide) (by decide)⟩

/-- C2 at the map with the entry `(5, 7)`: `insert(5, 8)` changes nothing. -/
theorem C2_witness :
    contains_key hash_int sample_one_entry 5 = true ∧
    insert hash_int 1 sample_one_entry 5 8 = some (false, sample_one_entry) :=
  ⟨by decide, C2_insert_present _ 5 8 1 (by decide)⟩

/-- C3 at the map with one entry in 16 buckets: `erase(5)` brings the load
factor to 0 and the rehash shrinks the table. -/
theorem C3_witness :
    Reachable hash_int sample_one_entry ∧ 1 ≤ 1 ∧
    contains_key hash_int sample_one_entry 5 = true ∧
    ∃ m1, erase hash_int 1 sample_one_entry 5 = some (true, m1) ∧
      contains_key hash_int m1 5 = false ∧ size m1 + 1 = size sample_one_entry :=
  ⟨reachable_one_entry, by decide, by decide,
    C3_erase_present _ reachable_one_entry 5 1 (by decide) (by decide)⟩

end HashMap

theorem C4_witness :
    HashMap.contains_key HashMap.hash_int (HashMap.mk_default : HashMap Nat Nat) 3 = false ∧
    HashMap.contains_key String.length (HashMap.mk_default : Dictionary) "a" = false ∧
    HashMap.erase HashMap.hash_int 1 (HashMap.mk_default : HashMap Nat Nat) 3
      = some (false, HashMap.mk_default) ∧
    Dictionary.erase String.length 1 (HashMap.mk_default : Dictionary) "a"
      = some (.error .InvalidKey, HashMap.mk_default) ∧
    (∀ (d2 : Dictionary) (key2 : String) (fuel2 : Nat) (e : Exception) (d3 : Dictionary),
      Dictionary.erase String.length fuel2 d2 key2 = some (.error e, d3) →
        HashMap.contains_key String.length d2 key2 = false) :=
  ⟨by decide, by decide,
    C4_erase_absent HashMap.hash_int HashMap.mk_default 3 String.length HashMap.mk_default "a" 1
      (by decide) (by decide)⟩

namespace HashMap

variable {K V : Type} [DecidableEq K] {hash : K → Nat}

theorem get_load_factor_le_upper (m : HashMap K V) (hc : 0 < m._capacity) :
    get_load_factor m ≤ 3 / 4 ↔ 4 * m._size ≤ 3 * m._capacity := by
  have hq : (0 : ℚ) < (m._capacity : ℚ) := by exact_mod_cast hc
  unfold get_load_factor
  rw [div_le_iff₀ hq]
  constructor
  · intro h
    have : (4 * m._size : ℚ) ≤ 3 * m._capacity := by linarith
    exact_mod_cast this
  · intro h
    have : (4 * m._size : ℚ) ≤ 3 * m._capacity := by exact_mod_cast h
    linarith

theorem lower_le_get_load_factor (m : HashMap K V) (hc : 0 < m._capacity) :
    1 / 4 ≤ get_load_factor m ↔ m._capacity ≤ 4 * m._size := by
  have hq : (0 : ℚ) < (m._capacity : ℚ) := by exact_mod_cast hc
  unfold get_load_factor
  rw [le_div_iff₀ hq]
  constructor
  · intro h
    have : (m._capacity : ℚ) ≤ 4 * m._size := by linarith
    exact_mod_cast this
  · intro h
    have : (m._capacity : ℚ) ≤ 4 * m._size := by exact_mod_cast h
    linarith

/-- A call of `insert` or `erase` on a state satisfying the invariant
returns, in a state satisfying the invariant; after a successful `erase`,
and after any call made where this already held, the load factor is `0.25`
or more unless one bucket is left. -/
theorem call_spec {m : HashMap K V} (h : Inv hash m) (fuel : Nat) (c : Call K V) :
    ∃ b m1, call hash (fuel + 1) m c = some (b, m1) ∧ Inv hash m1 ∧
      (((m._capacity ≤ 4 * m._size ∨ m._capacity = 1) ∨ ((∃ k, c = Call.erase k) ∧ b = true)) →
        m1._capacity ≤ 4 * m1._size ∨ m1._capacity = 1) := by
  cases c with
  | insert k v =>
    by_cases hc : contains_key hash m k = true
    · refine ⟨false, m, insertWith_present _ m k v hc, h, ?_⟩
      rintro (h1 | ⟨_, h1⟩)
      · exact h1
      · exact Bool.noConfusion h1
    · have habs : contains_key hash m k = false := by simpa using hc
      obtain ⟨m1, h1, _, h3, h4, _, h6⟩ := insert_absent_spec h k v habs
      refine ⟨true, m1, h1 fuel, h3, ?_⟩
      rintro (h7 | ⟨⟨k2, hk2⟩, _⟩)
      · rcases h6 with h6 | ⟨h6, h8⟩
        · rw [h6, h4]; omega
        · rw [h8, h4]; omega
      · cases hk2
  | erase k =>
    by_cases hc : contains_key hash m k = true
    · obtain ⟨m1, h1, _, h3, _, _, _, h7⟩ := erase_present_spec h k hc
      exact ⟨true, m1, h1 fuel, h3, fun _ => h7⟩
    · have habs : contains_key hash m k = false := by simpa using hc
      refine ⟨false, m, erase_absent _ m k habs, h, ?_⟩
      rintro (h1 | ⟨_, h1⟩)
      · exact h1
      · exact Bool.noConfusion h1

theorem run_calls_append (fuel : Nat) : ∀ (cs cs2 : List (Call K V)) (m : HashMap K V),
    run_calls hash fuel (cs ++ cs2) m = (run_calls hash fuel cs m).bind (run_calls hash fuel cs2) := by
  intro cs
  induction cs with
  | nil => intro cs2 m; rfl
  | cons c cs ih =>
    intro cs2 m
    simp only [List.cons_append, run_calls]
    rcases call hash fuel m c with _ | r
    · rfl
    · simp only [Option.some_bind]; exact ih cs2 r.2

theorem run_calls_spec (fuel : Nat) : ∀ (cs : List (Call K V)) (m : HashMap K V), Inv hash m →
    ∃ m1, run_calls hash (fuel + 1) cs m = some m1 ∧ Inv hash m1 := by
  intro cs
  induction cs with
  | nil => intro m h; exact ⟨m, rfl, h⟩
  | cons c cs ih =>
    intro m h
    obtain ⟨b, m1, h1, h2, _⟩ := call_spec h fuel c
    obtain ⟨m2, h3, h4⟩ := ih m1 h2
    exact ⟨m2, by simp only [run_calls, h1, Option.some_bind]; exact h3, h4⟩

end HashMap

namespace HashMap

variable {K V : Type} [DecidableEq K]

/-- C5 as stated fails on the first insert: a default-constructed map with
one entry has load factor `1/16`, and 16 buckets. -/
theorem C5_counterexample :
    run_calls hash_int 1 [Call.insert 0 0] (mk_default : HashMap Nat Nat) =
      some ⟨1, 16, [[(0, 0)], [], [], [], [], [], [], [], [], [], [], [], [], [], [], []]⟩ ∧
    ¬ load_within_bounds
      (⟨1, 16, [[(0, 0)], [], [], [], [], [], [], [], [], [], [], [], [], [], [], []]⟩ :
        HashMap Nat Nat) := by
  refine ⟨by decide, ?_⟩
  unfold load_within_bounds get_load_factor capacity
  norm_num

/-- C5, amended: from a default-constructed map, every sequence of `insert`
and `erase` calls returns (given a nesting budget of at least one
`rehash`), and after every completed call `size()/capacity() ≤ 0.75`; the
lower bound, `0.25 ≤ size()/capacity()` or `capacity() == 1`, holds after
every `erase` that returned true and after every call made in a state where
it held. -/
theorem C5_load_factor_after_calls (hash : K → Nat) (fuel : Nat) (hfuel : 1 ≤ fuel)
    (cs : List (Call K V)) (c : Call K V) :
    ∃ m0 b m1, run_calls hash fuel cs (mk_default : HashMap K V) = some m0 ∧
      call hash fuel m0 c = some (b, m1) ∧
      run_calls hash fuel (cs ++ [c]) (mk_default : HashMap K V) = some m1 ∧
      get_load_factor m1 ≤ 3 / 4 ∧
      (((1 / 4 ≤ get_load_factor m0 ∨ capacity m0 = 1) ∨ ((∃ k, c = Call.erase k) ∧ b = true)) →
        1 / 4 ≤ get_load_factor m1 ∨ capacity m1 = 1) := by
  obtain ⟨f, rfl⟩ : ∃ f, fuel = f + 1 := ⟨fuel - 1, by omega⟩
  obtain ⟨m0, h0, hinv0⟩ := @run_calls_spec K V _ hash f cs mk_default Inv_mk_default
  obtain ⟨b, m1, h1, hinv1, hlow⟩ := call_spec hinv0 f c
  refine ⟨m0, b, m1, h0, h1, ?_, ?_, ?_⟩
  · rw [run_calls_append, h0]
    simp only [Option.some_bind, run_calls, h1]
  · exact (get_load_factor_le_upper m1 hinv1.wf.cap_pos).2 hinv1.upper
  · intro hk
    have hpre : (m0._capacity ≤ 4 * m0._size ∨ m0._capacity = 1) ∨
        ((∃ k, c = Call.erase k) ∧ b = true) := by
      rcases hk with (h | h) | h
      · exact Or.inl (Or.inl ((lower_le_get_load_factor m0 hinv0.wf.cap_pos).1 h))
      · exact Or.inl (Or.inr h)
      · exact Or.inr h
    rcases hlow hpre with h | h
    · exact Or.inl ((lower_le_get_load_factor m1 hinv1.wf.cap_pos).2 h)
    · exact Or.inr h

/-- C5, amended, at `insert(5, 7)` followed by `erase(5)`. -/
theorem C5_witness :
    1 ≤ 1 ∧
    ∃ m0 b m1, run_calls hash_int 1 [Call.insert 5 7] (mk_default : HashMap Nat Nat) = some m0 ∧
      call hash_int 1 m0 (Call.erase 5) = some (b, m1) ∧
      run_calls hash_int 1 ([Call.insert 5 7] ++ [Call.erase 5]) (mk_default : HashMap Nat Nat)
        = some m1 ∧
      get_load_factor m1 ≤ 3 / 4 ∧
      (((1 / 4 ≤ get_load_factor m0 ∨ capacity m0 = 1) ∨
          ((∃ k, (Call.erase 5 : Call Nat Nat) = Call.erase k) ∧ b = true)) →
        1 / 4 ≤ get_load_factor m1 ∨ capacity m1 = 1) :=
  ⟨by decide, C5_load_factor_after_calls hash_int 1 (by decide) [Call.insert 5 7] (Call.erase 5)⟩

end HashMap

namespace HashMap

variable {K V : Type} [DecidableEq K]

theorem length_entries_of (L : List (List (K × V))) : ∀ (c : Nat), c ≤ L.length →
    (entries_of L c).length = ((List.range c).map (fun i => (L.getD i []).length)).sum := by
  intro c
  induction c with
  | zero => intro _; simp [entries_of]
  | succ c ih =>
    intro hc
    have h1 := ih (by omega)
    simp only [entries_of] at h1 ⊢
    rw [List.take_succ, List.getElem?_eq_getElem (by omega), List.range_succ, List.map_append,
      List.sum_append, List.flatten_append, List.length_append, h1]
    simp [List.getD_eq_getElem?_getD, List.getElem?_eq_getElem (show c < L.length by omega)]

/-- C6: in every reachable state `capacity()` is a power of two and at
least 1; a default-constructed map has capacity 16. -/
theorem C6_capacity_power_of_two [Inhabited V] (hash : K → Nat) (m : HashMap K V)
    (hm : Reachable hash m) :
    (∃ n, capacity m = 2 ^ n) ∧ 1 ≤ capacity m ∧ capacity (mk_default : HashMap K V) = 16 :=
  ⟨hm.inv.pow2, hm.inv.wf.cap_pos, rfl⟩

/-- C6 at the one-bucket map, whose capacity was halved four times. -/
theorem C6_witness :
    Reachable hash_int sample_one_bucket ∧
    ((∃ n, capacity sample_one_bucket = 2 ^ n) ∧ 1 ≤ capacity sample_one_bucket ∧
      capacity (mk_default : HashMap Nat Nat) = 16) :=
  ⟨reachable_one_bucket, C6_capacity_power_of_two hash_int _ reachable_one_bucket⟩

/-- C7: in every reachable state no two stored entries, of one bucket or of
two, have equal keys, and `size()` is the number of entries over all
buckets. -/
theorem C7_unique_keys_and_size [Inhabited V] (hash : K → Nat) (m : HashMap K V)
    (hm : Reachable hash m) :
    ((entries m).map Prod.fst).Nodup ∧ size m = (entries m).length ∧
    size m = ((List.range (capacity m)).map (fun i => (bucket m i).length)).sum := by
  have h := hm.inv.wf
  refine ⟨by rw [h.entries_eq]; exact h.nodup_keys, by rw [h.entries_eq]; exact h.size_eq, ?_⟩
  rw [show size m = (entries m).length by rw [h.entries_eq]; exact h.size_eq]
  exact length_entries_of m._map m._capacity h.len_ge

/-- C7 at the default-constructed map after `insert(5, 7)`. -/
theorem C7_witness :
    Reachable hash_int sample_one_entry ∧
    (((entries sample_one_entry).map Prod.fst).Nodup ∧
      size sample_one_entry = (entries sample_one_entry).length ∧
      size sample_one_entry = ((List.range (capacity sample_one_entry)).map
        (fun i => (bucket sample_one_entry i).length)).sum) :=
  ⟨reachable_one_entry, C7_unique_keys_and_size hash_int _ reachable_one_entry⟩

end HashMap

namespace HashMap

variable {K V : Type} [DecidableEq K]

theorem find_of_contains_key (hash : K → Nat) (m : HashMap K V) (k : K)
    (h : contains_key hash m k = true) :
    ∃ v, (bucket m (hash_function hash m k)).find? (fun e => e.1 == k) = some (k, v) := by
  rcases hf : (bucket m (hash_function hash m k)).find? (fun e => e.1 == k) with _ | e
  · rw [List.find?_eq_none] at hf
    obtain ⟨v, hv⟩ := (contains_key_eq_true_iff m k).1 h
    exact absurd (by simp) (hf (k, v) hv)
  · have := List.find?_some hf
    have hk : e.1 = k := by simpa using this
    subst hk
    exact ⟨e.2, hf⟩

/-- C8: on every map, `at(k)` throws `std::invalid_argument` if and only if
`contains_key(k)` is false; for a present key it returns the value of the
pair stored under `k` (the first pair with key `k` in the bucket of `k`);
the non-const `at` gives the same result, and the map is as it was. -/
theorem C8_at [Inhabited V] (hash : K → Nat) (m : HashMap K V) (k : K) :
    ((∃ e, at_const hash m k = .error e) ↔ contains_key hash m k = false) ∧
    (at_const hash m k = .error .invalid_argument ↔ contains_key hash m k = false) ∧
    (∀ v, at_const hash m k = .ok v ↔
      (bucket m (hash_function hash m k)).find? (fun e => e.1 == k) = some (k, v)) ∧
    at_mut hash m k = (at_const hash m k, m) := by
  by_cases hc : contains_key hash m k = true
  · obtain ⟨v, hv⟩ := find_of_contains_key hash m k hc
    have hat : at_const hash m k = .ok v := by
      simp [at_const, operator_index_const, hc, hv]
    refine ⟨by simp [hat, hc], by simp [hat, hc], ?_, ?_⟩
    · intro w
      rw [hat, hv]
      constructor
      · intro h; cases h; rfl
      · intro h; cases h; rfl
    · rw [hat]; simp [at_mut, index_loop, hc, hv]
  · have habs : contains_key hash m k = false := by simpa using hc
    have hat : at_const hash m k = .error .invalid_argument := by simp [at_const, habs]
    have hnone : (bucket m (hash_function hash m k)).find? (fun e => e.1 == k) = none := by
      rw [List.find?_eq_none]
      intro x hx hk
      have : x.1 = k := by simpa using hk
      subst this
      exact (contains_key_eq_false_iff m x.1).1 habs x.2 hx
    refine ⟨by simp [hat, habs], by simp [hat, habs], ?_, ?_⟩
    · intro w; rw [hat, hnone]; simp
    · rw [hat]; simp [at_mut, habs]

/-- C9: on every reachable map, the non-const `operator[]` on an absent key
`k` inserts `k` with `ValueT()`, raises `size()` by one and yields that value
(given a nesting budget of at least one `rehash`); the read-only
`operator[]` on an absent key yields `ValueT()`, also right after that
insertion for a key `k2` that is still absent, and being `const` it leaves
the map as it is; on a present key both operators yield the stored value and
the non-const one leaves the map, hence `size()`, as it is. -/
theorem C9_index_operators [Inhabited V] (hash : K → Nat) (m : HashMap K V)
    (hm : Reachable hash m) (fuel : Nat) (hfuel : 1 ≤ fuel) (k : K) :
    (contains_key hash m k = false →
      operator_index_const hash m k = default ∧
      ∃ m1, operator_index hash fuel m k = some (.ok default, m1) ∧ size m1 = size m + 1 ∧
        contains_key hash m1 k = true ∧ at_const hash m1 k = .ok default ∧
        ∀ k2, contains_key hash m1 k2 = false → operator_index_const hash m1 k2 = default) ∧
    (contains_key hash m k = true →
      ∃ v, (k, v) ∈ entries m ∧ operator_index hash fuel m k = some (.ok v, m) ∧
        operator_index_const hash m k = v) := by
  obtain ⟨f, rfl⟩ : ∃ f, fuel = f + 1 := ⟨fuel - 1, by omega⟩
  constructor
  · intro habs
    obtain ⟨m1, h1, _, h3, h4, h5⟩ := operator_index_absent_spec hm.inv k habs
    have hmem : (k, (default : V)) ∈ m1._map.flatten := (h5 _).2 (Or.inr rfl)
    refine ⟨by simp [operator_index_const, habs], m1, h1 f, h4, h3.wf.contains_of_mem hmem,
      h3.wf.at_const_of_mem hmem, ?_⟩
    intro k2 hk2
    simp [operator_index_const, hk2]
  · intro hc
    obtain ⟨v, hv⟩ := (hm.inv.wf.contains_iff k).1 hc
    exact ⟨v, by rw [hm.inv.wf.entries_eq]; exact hv, operator_index_present hm.inv.wf _ hv,
      hm.inv.wf.operator_index_const_of_mem hv⟩

/-- C9 at the one-bucket map: `map[5]` inserts `(5, 0)` and the rehash
doubles the table. -/
theorem C9_witness :
    Reachable hash_int sample_one_bucket ∧ 1 ≤ 1 ∧
    ((contains_key hash_int sample_one_bucket 5 = false →
      operator_index_const hash_int sample_one_bucket 5 = default ∧
      ∃ m1, operator_index hash_int 1 sample_one_bucket 5 = some (.ok default, m1) ∧
        size m1 = size sample_one_bucket + 1 ∧
        contains_key hash_int m1 5 = true ∧ at_const hash_int m1 5 = .ok default ∧
        ∀ k2, contains_key hash_int m1 k2 = false → operator_index_const hash_int m1 k2 = default) ∧
    (contains_key hash_int sample_one_bucket 5 = true →
      ∃ v, (5, v) ∈ entries sample_one_bucket ∧
        operator_index hash_int 1 sample_one_bucket 5 = some (.ok v, sample_one_bucket) ∧
        operator_index_const hash_int sample_one_bucket 5 = v)) :=
  ⟨reachable_one_bucket, by decide,
    C9_index_operators hash_int _ reachable_one_bucket 1 (by decide) 5⟩

end HashMap

namespace HashMap

variable {K V : Type} [DecidableEq K]

/-- The two-vector constructor on vectors of equal length: it returns, the
constructed map satisfies the invariant and holds, for every key of `keys`,
the pair of its last occurrence, and nothing else. -/
theorem mk_vectors_spec [Inhabited V] (hash : K → Nat) (keys : List K) (values : List V)
    (hlen : keys.length = values.length) :
    ∃ m, (∀ fuel, mk_vectors hash (fuel + 1) keys values = some (.ok m)) ∧ Inv hash m ∧
      (∀ e, e ∈ m._map.flatten ↔
        ∃ l1 l2, keys.zip values = l1 ++ e :: l2 ∧ e.1 ∉ l2.map Prod.fst) := by
  obtain ⟨m, h1, _, h3, h4⟩ := @assign_all_spec K V _ hash _ (keys.zip values) mk_default
    Inv_mk_default
  refine ⟨m, ?_, h3, ?_⟩
  · intro fuel
    simp only [mk_vectors, hlen, ne_eq, not_true_eq_false, if_false]
    exact h1 fuel
  · intro e
    rw [h4, flatten_mk_default]
    simp

/-- C10: the two-vector constructor throws `std::out_of_range` exactly when
the lengths differ; on equal lengths it returns a map (given a nesting
budget of at least one `rehash`) in which `at(k)` is the value at the last
position of `k` in `keys`, for every key of `keys`, and whose `size()` is the
number of distinct keys. -/
theorem C10_construct_from_vectors [Inhabited V] (hash : K → Nat) (fuel : Nat) (hfuel : 1 ≤ fuel)
    (keys : List K) (values : List V) :
    (keys.length ≠ values.length →
      mk_vectors hash fuel keys values = some (.error .out_of_range)) ∧
    (keys.length = values.length →
      ∃ m, mk_vectors hash fuel keys values = some (.ok m) ∧ size m = keys.dedup.length ∧
        ∀ (ks1 : List K) (k : K) (ks2 : List K) (vs1 : List V) (v : V) (vs2 : List V),
          keys = ks1 ++ k :: ks2 → values = vs1 ++ v :: vs2 → ks1.length = vs1.length →
          k ∉ ks2 → at_const hash m k = .ok v) := by
  obtain ⟨f, rfl⟩ : ∃ f, fuel = f + 1 := ⟨fuel - 1, by omega⟩
  constructor
  · intro hne
    simp [mk_vectors, hne]
  · intro hlen
    obtain ⟨m, h1, h2, h3⟩ := mk_vectors_spec hash keys values hlen
    refine ⟨m, h1 f, ?_, ?_⟩
    · have hkeys : (keys.zip values).map Prod.fst = keys :=
        List.map_fst_zip _ _ (le_of_eq hlen)
      have hperm : (m._map.flatten.map Prod.fst).Perm keys.dedup := by
        rw [List.perm_ext_iff_of_nodup h2.wf.nodup_keys (List.nodup_dedup keys)]
        intro k
        rw [List.mem_dedup]
        constructor
        · intro hk
          obtain ⟨e, he, rfl⟩ := List.mem_map.1 hk
          obtain ⟨l1, l2, heq, _⟩ := (h3 e).1 he
          rw [← hkeys, heq]
          simp
        · intro hk
          rw [← hkeys] at hk
          obtain ⟨v, l1, l2, heq, hn⟩ := exists_last_of_mem_keys _ k hk
          exact List.mem_map.2 ⟨(k, v), (h3 (k, v)).2 ⟨l1, l2, heq, hn⟩, rfl⟩
      have := hperm.length_eq
      rw [List.length_map] at this
      simp only [size]
      rw [h2.wf.size_eq, this]
    · intro ks1 k ks2 vs1 v vs2 hk hv hl hnot
      apply h2.wf.at_const_of_mem
      rw [h3]
      refine ⟨ks1.zip vs1, ks2.zip vs2, ?_, ?_⟩
      · rw [hk, hv, List.zip_append hl]
        rfl
      · intro hmem
        obtain ⟨e, he, hek⟩ := List.mem_map.1 hmem
        have := (List.of_mem_zip (show (e.1, e.2) ∈ ks2.zip vs2 from he)).1
        have hk2 : e.1 = k := hek
        exact hnot (hk2 ▸ this)

/-- C10 at the example of the specification, with keys 1 and 2 for `a` and
`b`: the claim, and the values it gives there. -/
theorem C10_witness :
    1 ≤ 1 ∧
    ((([1, 2] : List Nat).length ≠ ([1, 2] : List Nat).length →
      mk_vectors hash_int 1 [1, 2] [1, 2] = some (.error .out_of_range)) ∧
    (([1, 2] : List Nat).length = ([1, 2] : List Nat).length →
      ∃ m, mk_vectors hash_int 1 [1, 2] [1, 2] = some (.ok m) ∧
        size m = ([1, 2] : List Nat).dedup.length ∧
        ∀ (ks1 : List Nat) (k : Nat) (ks2 : List Nat) (vs1 : List Nat) (v : Nat) (vs2 : List Nat),
          [1, 2] = ks1 ++ k :: ks2 → [1, 2] = vs1 ++ v :: vs2 → ks1.length = vs1.length →
          k ∉ ks2 → at_const hash_int m k = .ok v)) :=
  ⟨by decide, C10_construct_from_vectors hash_int 1 (by decide) [1, 2] [1, 2]⟩

/-- The example of the specification evaluated: keys `["a","b"]`, values
`["1","2"]` give size 2, `at("a") == "1"` and `at("b") == "2"`; a length
mismatch throws. -/
theorem mk_vectors_example :
    (∃ m, mk_vectors String.length 1 ["a", "b"] ["1", "2"] = some (.ok m) ∧ size m = 2 ∧
      at_const String.length m "a" = .ok "1" ∧ at_const String.length m "b" = .ok "2") ∧
    mk_vectors String.length 1 ["x"] ["1", "2"] = some (.error .out_of_range) := by
  refine ⟨⟨⟨2, 16, [[], [("a", "1"), ("b", "2")], [], [], [], [], [], [], [], [], [], [], [], [],
    [], []]⟩, rfl, rfl, rfl, rfl⟩, rfl⟩

end HashMap

namespace HashMap

variable {K V : Type} [DecidableEq K]

theorem lookup_congr [Inhabited V] {hash : K → Nat} {m m1 : HashMap K V} (h : WFc hash m)
    (h1 : WFc hash m1) (k2 : K)
    (hmem : ∀ w, (k2, w) ∈ m1._map.flatten ↔ (k2, w) ∈ m._map.flatten) :
    contains_key hash m1 k2 = contains_key hash m k2 ∧
    at_const hash m1 k2 = at_const hash m k2 := by
  by_cases hc : contains_key hash m k2 = true
  · obtain ⟨w, hw⟩ := (h.contains_iff k2).1 hc
    have hw1 := (hmem w).2 hw
    rw [hc, h1.contains_of_mem hw1, h.at_const_of_mem hw, h1.at_const_of_mem hw1]
    exact ⟨rfl, rfl⟩
  · have habs : contains_key hash m k2 = false := by simpa using hc
    have habs1 : contains_key hash m1 k2 = false := by
      rw [← Bool.not_eq_true, h1.contains_iff]
      rintro ⟨w, hw⟩
      exact hc ((h.contains_iff k2).2 ⟨w, (hmem w).1 hw⟩)
    simp [at_const, habs, habs1]

/-- C17: on every reachable map, `insert(k, v)` and `erase(k)` return (given
a nesting budget of at least one `rehash`) and leave `contains_key(k2)` and
`at(k2)` as they were for every other key `k2`, and keep every entry with a
key other than `k`, whether or not the call rehashes. -/
theorem C17_frame [Inhabited V] (hash : K → Nat) (m : HashMap K V) (hm : Reachable hash m)
    (fuel : Nat) (hfuel : 1 ≤ fuel) (k k2 : K) (v : V) (hne : k2 ≠ k) :
    (∃ b m1, insert hash fuel m k v = some (b, m1) ∧
      contains_key hash m1 k2 = contains_key hash m k2 ∧
      at_const hash m1 k2 = at_const hash m k2 ∧
      ∀ e, e.1 ≠ k → (e ∈ entries m1 ↔ e ∈ entries m)) ∧
    (∃ b m1, erase hash fuel m k = some (b, m1) ∧
      contains_key hash m1 k2 = contains_key hash m k2 ∧
      at_const hash m1 k2 = at_const hash m k2 ∧
      ∀ e, e.1 ≠ k → (e ∈ entries m1 ↔ e ∈ entries m)) := by
  obtain ⟨f, rfl⟩ : ∃ f, fuel = f + 1 := ⟨fuel - 1, by omega⟩
  have hinv := hm.inv
  constructor
  · by_cases hc : contains_key hash m k = true
    · exact ⟨false, m, insertWith_present _ m k v hc, rfl, rfl, fun _ _ => Iff.rfl⟩
    · have habs : contains_key hash m k = false := by simpa using hc
      obtain ⟨m1, h1, _, h3, _, h5, _⟩ := insert_absent_spec hinv k v habs
      have hmem : ∀ e : K × V, e.1 ≠ k → (e ∈ m1._map.flatten ↔ e ∈ m._map.flatten) := by
        intro e he
        rw [h5]
        constructor
        · rintro (h | h)
          · exact h
          · exact absurd (congrArg Prod.fst h) he
        · exact Or.inl
      obtain ⟨g1, g2⟩ := lookup_congr hinv.wf h3.wf k2 (fun w => hmem (k2, w) hne)
      refine ⟨true, m1, h1 f, g1, g2, ?_⟩
      intro e he
      rw [h3.wf.entries_eq, hinv.wf.entries_eq]
      exact hmem e he
  · by_cases hc : contains_key hash m k = true
    · obtain ⟨m1, h1, _, h3, _, h5, _⟩ := erase_present_spec hinv k hc
      have hmem : ∀ e : K × V, e.1 ≠ k → (e ∈ m1._map.flatten ↔ e ∈ m._map.flatten) := by
        intro e he
        rw [h5]
        exact ⟨fun h => h.1, fun h => ⟨h, he⟩⟩
      obtain ⟨g1, g2⟩ := lookup_congr hinv.wf h3.wf k2 (fun w => hmem (k2, w) hne)
      refine ⟨true, m1, h1 f, g1, g2, ?_⟩
      intro e he
      rw [h3.wf.entries_eq, hinv.wf.entries_eq]
      exact hmem e he
    · have habs : contains_key hash m k = false := by simpa using hc
      exact ⟨false, m, erase_absent _ m k habs, rfl, rfl, fun _ _ => Iff.rfl⟩

/-- C17 at the map with the entry `(5, 7)`: `insert(21, 1)` and `erase(21)`
use the bucket of key 5 and leave key 5 as it is. -/
theorem C17_witness :
    Reachable hash_int sample_one_entry ∧ 1 ≤ 1 ∧ (5 : Nat) ≠ 21 ∧
    ((∃ b m1, insert hash_int 1 sample_one_entry 21 1 = some (b, m1) ∧
      contains_key hash_int m1 5 = contains_key hash_int sample_one_entry 5 ∧
      at_const hash_int m1 5 = at_const hash_int sample_one_entry 5 ∧
      ∀ e : Nat × Nat, e.1 ≠ 21 → (e ∈ entries m1 ↔ e ∈ entries sample_one_entry)) ∧
    (∃ b m1, erase hash_int 1 sample_one_entry 21 = some (b, m1) ∧
      contains_key hash_int m1 5 = contains_key hash_int sample_one_entry 5 ∧
      at_const hash_int m1 5 = at_const hash_int sample_one_entry 5 ∧
      ∀ e : Nat × Nat, e.1 ≠ 21 → (e ∈ entries m1 ↔ e ∈ entries sample_one_entry))) :=
  ⟨reachable_one_entry, by decide, by decide,
    C17_frame hash_int _ reachable_one_entry 1 (by decide) 21 5 1 (by decide)⟩

theorem rehashWith_blocks (ins : HashMap K V → K → V → Option (Bool × HashMap K V))
    (m : HashMap K V) :
    rehashWith ins m = (grow_block ins m).bind (shrink_block ins m._map m._capacity) := rfl

/-- C18: in a call of `rehash()` on a well-formed map, the grow block leaves
a load factor of at least `0.25`, so the shrink block that follows it is not
entered; the shrink block is entered only when the grow block was not; and
the call returns with a nesting budget of one, that is, no re-insertion
calls `rehash()` again. -/
theorem C18_one_block_per_rehash (hash : K → Nat) (m : HashMap K V) (hwf : WFc hash m) :
    (∃ m2, rehashF hash 1 m = some m2) ∧
    (above_upper m = true →
      ∃ m1, grow_block (insertWith hash (rehashF hash 0)) m = some m1 ∧
        1 / 4 ≤ get_load_factor m1 ∧ below_lower m1 = false ∧
        shrink_block (insertWith hash (rehashF hash 0)) m._map m._capacity m1 = some m1) ∧
    (below_lower m = true → above_upper m = false ∧
      grow_block (insertWith hash (rehashF hash 0)) m = some m) := by
  have hlow_up : below_lower m = true → above_upper m = false := by
    intro hl
    rw [below_lower_eq_true] at hl
    rw [above_upper_eq_false]
    omega
  refine ⟨?_, ?_, ?_⟩
  · by_cases hcall : above_upper m = true ∨ below_lower m = true
    · obtain ⟨m1, h1, _⟩ := rehash_spec hwf hcall
      exact ⟨m1, h1 _⟩
    · have h1 : above_upper m = false := by
        cases h : above_upper m
        · rfl
        · exact absurd (Or.inl h) hcall
      have h2 : below_lower m = false := by
        cases h : below_lower m
        · rfl
        · exact absurd (Or.inr h) hcall
      exact ⟨m, by simp [rehashF, rehashWith, h1, h2]⟩
  · intro hup
    obtain ⟨c1, hc1, hle, ⟨j, hj⟩, hfirst⟩ := grow_capacity_spec m._size m._capacity hwf.cap_pos
    have hc1pos : 0 < c1 := by
      rw [hj]; exact Nat.mul_pos hwf.cap_pos (Nat.pos_pow_of_pos j (by decide))
    obtain ⟨m1, h1, h2, h3, _, h5, _⟩ := reinsert_fresh hwf c1 hc1pos hle
    have hup2 := (above_upper_eq_true m).1 hup
    have hge : m1._capacity ≤ 4 * m1._size := by
      rw [h3, h5]
      rcases hfirst with hf | hf
      · omega
      · omega
    have hlow : below_lower m1 = false := (below_lower_eq_false m1).2 hge
    refine ⟨m1, ?_, (lower_le_get_load_factor m1 h2.cap_pos).2 hge, hlow, ?_⟩
    · have := h1 (rehashF hash 0)
      simp only [fresh] at this
      simp [grow_block, hup, hc1, this]
    · simp [shrink_block, hlow]
  · intro hl
    exact ⟨hlow_up hl, by simp [grow_block, hlow_up hl]⟩

end HashMap

namespace HashMap

variable {K V : Type} [DecidableEq K]

/-- The state in which `insert(5, 7)` on the one-bucket map calls
`rehash()` is well-formed. -/
theorem WFc_sample_pushed : WFc hash_int (pushed hash_int sample_one_bucket 5 7) :=
  WFc_pushed reachable_one_bucket.inv.wf 5 7 (by decide)

/-- C18 at the state in which `insert(5, 7)` on the one-bucket map calls
`rehash()`: one entry in one bucket. -/
theorem C18_witness :
    WFc hash_int (pushed hash_int sample_one_bucket 5 7) ∧
    ((∃ m2, rehashF hash_int 1 (pushed hash_int sample_one_bucket 5 7) = some m2) ∧
    (above_upper (pushed hash_int sample_one_bucket 5 7) = true →
      ∃ m1, grow_block (insertWith hash_int (rehashF hash_int 0))
          (pushed hash_int sample_one_bucket 5 7) = some m1 ∧
        1 / 4 ≤ get_load_factor m1 ∧ below_lower m1 = false ∧
        shrink_block (insertWith hash_int (rehashF hash_int 0))
          (pushed hash_int sample_one_bucket 5 7)._map
          (pushed hash_int sample_one_bucket 5 7)._capacity m1 = some m1) ∧
    (below_lower (pushed hash_int sample_one_bucket 5 7) = true →
      above_upper (pushed hash_int sample_one_bucket 5 7) = false ∧
      grow_block (insertWith hash_int (rehashF hash_int 0))
        (pushed hash_int sample_one_bucket 5 7) = some (pushed hash_int sample_one_bucket 5 7))) :=
  ⟨WFc_sample_pushed, C18_one_block_per_rehash hash_int _ WFc_sample_pushed⟩

/-- C19: in every reachable state `4 * size() ≤ 3 * capacity()`; an `insert`
changes the capacity only by doubling it, and the `insert` of an absent key
that brings the load factor above `0.75` returns (given a nesting budget of
at least one `rehash`) with exactly twice the capacity. -/
theorem C19_upper_bound_and_doubling [Inhabited V] (hash : K → Nat) (m : HashMap K V)
    (hm : Reachable hash m) :
    4 * size m ≤ 3 * capacity m ∧
    (∀ (k : K) (v : V) (fuel : Nat) (b : Bool) (m1 : HashMap K V),
      insert hash fuel m k v = some (b, m1) →
        capacity m1 = capacity m ∨ capacity m1 = 2 * capacity m) ∧
    (∀ (k : K) (v : V) (fuel : Nat), 1 ≤ fuel → contains_key hash m k = false →
      above_upper (pushed hash m k v) = true →
        ∃ m1, insert hash fuel m k v = some (true, m1) ∧ capacity m1 = 2 * capacity m) := by
  have hinv := hm.inv
  refine ⟨hinv.upper, ?_, ?_⟩
  · intro k v fuel b m1 hr
    by_cases hc : contains_key hash m k = true
    · simp only [insert] at hr
      rw [insertWith_present _ m k v hc] at hr
      cases hr; exact Or.inl rfl
    · have habs : contains_key hash m k = false := by simpa using hc
      obtain ⟨m2, h1, h2, _, _, _, h6⟩ := insert_absent_spec hinv k v habs
      have hm2 : m1 = m2 := by
        cases fuel with
        | zero => have := h2 _ hr; cases this; rfl
        | succ fuel => rw [h1 fuel] at hr; cases hr; rfl
      subst hm2
      rcases h6 with h6 | ⟨_, h6⟩
      · exact Or.inl h6
      · exact Or.inr h6
  · intro k v fuel hfuel habs hup
    obtain ⟨f, rfl⟩ : ∃ f, fuel = f + 1 := ⟨fuel - 1, by omega⟩
    obtain ⟨m1, h1, _, h3, h4, _, h6⟩ := insert_absent_spec hinv k v habs
    refine ⟨m1, h1 f, ?_⟩
    rcases h6 with h6 | ⟨_, h6⟩
    · exfalso
      have hup2 := (above_upper_eq_true _).1 hup
      have hu := h3.upper
      rw [h4, h6] at hu
      simp only [pushed] at hup2
      omega
    · exact h6

/-- C19 at the one-bucket map, where `insert(5, 7)` doubles the table. -/
theorem C19_witness :
    Reachable hash_int sample_one_bucket ∧
    (4 * size sample_one_bucket ≤ 3 * capacity sample_one_bucket ∧
    (∀ (k : Nat) (v : Nat) (fuel : Nat) (b : Bool) (m1 : HashMap Nat Nat),
      insert hash_int fuel sample_one_bucket k v = some (b, m1) →
        capacity m1 = capacity sample_one_bucket ∨ capacity m1 = 2 * capacity sample_one_bucket) ∧
    (∀ (k : Nat) (v : Nat) (fuel : Nat), 1 ≤ fuel →
      contains_key hash_int sample_one_bucket k = false →
      above_upper (pushed hash_int sample_one_bucket k v) = true →
        ∃ m1, insert hash_int fuel sample_one_bucket k v = some (true, m1) ∧
          capacity m1 = 2 * capacity sample_one_bucket)) :=
  ⟨reachable_one_bucket, C19_upper_bound_and_doubling hash_int _ reachable_one_bucket⟩

end HashMap

/-- The loop of `Dictionary::update` on a non-empty range does not end
within any number of iterations. -/
theorem Dictionary.update_loop_cons (hash : String → Nat) (fuel : Nat) (p : String × String)
    (rest : List (String × String)) : ∀ (n : Nat) (d : Dictionary),
    Dictionary.update_loop hash fuel n (p :: rest) d = none := by
  intro n
  induction n with
  | zero => intro d; simp [Dictionary.update_loop]
  | succ n ih =>
    intro d
    simp only [Dictionary.update_loop]
    rcases ((if HashMap.contains_key hash d p.1 = true then
        Option.map Prod.snd (HashMap.erase hash fuel d p.1) else some d).bind fun d1 =>
        Option.map Prod.snd (HashMap.insert hash fuel d1 p.1 p.2)) with _ | d2
    · rfl
    · simp only [Option.some_bind]; exact ih d2

/-- C15 fails on the code: `Dictionary::update` on a range with at least one
pair does not return, whatever the budgets; `first` is advanced only behind
the loop.  On the empty range it returns at once. -/
theorem C15_update_does_not_return (hash : String → Nat) (fuel n : Nat) (d : Dictionary)
    (p : String × String) (rest : List (String × String)) :
    Dictionary.update hash fuel n d (p :: rest) = none ∧
    Dictionary.update hash fuel (n + 1) d [] = some d :=
  ⟨Dictionary.update_loop_cons hash fuel p rest n d, rfl⟩

namespace HashMap

/-- C14 fails on the code: `begin()` and `end()` of a default-constructed
map are at the same position of the same map, and `operator==` returns
false for them (`operator!=` true), the two iterator objects lying at
different addresses. -/
theorem C14_iterator_equality_fails :
    position (cbegin 100 1 (mk_default : HashMap Nat Nat)) =
      position (cend 200 1 (mk_default : HashMap Nat Nat)) ∧
    (cbegin 100 1 (mk_default : HashMap Nat Nat)).hash_map_ =
      (cend 200 1 (mk_default : HashMap Nat Nat)).hash_map_ ∧
    ConstIterator.operator_eq (cbegin 100 1 (mk_default : HashMap Nat Nat))
      (cend 200 1 (mk_default : HashMap Nat Nat)) = false ∧
    ConstIterator.operator_ne (cbegin 100 1 (mk_default : HashMap Nat Nat))
      (cend 200 1 (mk_default : HashMap Nat Nat)) = true := by
  decide

/-- The member `operator==` of the iterator returns true only for one and the
same iterator object. -/
theorem ConstIterator.operator_eq_iff (it rhs : ConstIterator) :
    ConstIterator.operator_eq it rhs = true ↔
      it.addr = rhs.addr ∧ it.vector_index_ = rhs.vector_index_ ∧
        it.pair_index_ = rhs.pair_index_ := by
  simp [ConstIterator.operator_eq, and_assoc]

end HashMap

/-! ## The iterator -/

namespace HashMap

variable {K V : Type} [DecidableEq K]

theorem bucket_eq_getElem (m : HashMap K V) (i : Nat) (hi : i < m._map.length) :
    bucket m i = m._map[i] := by
  simp [bucket, List.getD_eq_getElem?_getD, List.getElem?_eq_getElem hi]

theorem entries_from_step (m : HashMap K V) (hlen : m._capacity ≤ m._map.length) (i : Nat)
    (hi : i < m._capacity) :
    entries_from m i = bucket m i ++ entries_from m (i + 1) := by
  have h1 : i < (m._map.take m._capacity).length := by
    rw [List.length_take]; omega
  simp only [entries_from]
  rw [List.drop_eq_getElem_cons h1, List.flatten_cons, List.getElem_take,
    bucket_eq_getElem m i (by omega)]

theorem entries_from_of_le (m : HashMap K V) (i : Nat) (hi : m._capacity ≤ i) :
    entries_from m i = [] := by
  simp only [entries_from]
  rw [List.drop_of_length_le (by rw [List.length_take]; omega)]
  rfl

theorem entries_from_skip (m : HashMap K V) (hlen : m._capacity ≤ m._map.length) :
    ∀ (d i w : Nat), w = i + d → w ≤ m._capacity →
      (∀ j, i ≤ j → j < w → bucket m j = []) → entries_from m i = entries_from m w := by
  intro d
  induction d with
  | zero => intro i w hw _ _; rw [hw]; rfl
  | succ d ih =>
    intro i w hw hcap hempty
    rw [entries_from_step m hlen i (by omega), hempty i (le_refl _) (by omega), List.nil_append]
    exact ih (i + 1) w (by omega) hcap (fun j h1 h2 => hempty j (by omega) h2)

/-- The scan of `cend()` over the buckets `0 .. n - 1`. -/
theorem cend_fold_succ (m : HashMap K V) (n : Nat) :
    (List.range (n + 1)).foldl (fun e i => if !(bucket m i).isEmpty then i + 1 else e) 0 =
      if !(bucket m n).isEmpty then n + 1
      else (List.range n).foldl (fun e i => if !(bucket m i).isEmpty then i + 1 else e) 0 := by
  rw [List.range_succ, List.foldl_append]
  rfl

theorem cend_fold_spec (m : HashMap K V) : ∀ (n : Nat),
    (List.range n).foldl (fun e i => if !(bucket m i).isEmpty then i + 1 else e) 0 ≤ n ∧
    ((∀ j, j < n → bucket m j = []) →
      (List.range n).foldl (fun e i => if !(bucket m i).isEmpty then i + 1 else e) 0 = 0) ∧
    (∀ v, v < n → bucket m v ≠ [] →
      v < (List.range n).foldl (fun e i => if !(bucket m i).isEmpty then i + 1 else e) 0 ∧
      ((∀ j, v < j → j < n → bucket m j = []) →
        (List.range n).foldl (fun e i => if !(bucket m i).isEmpty then i + 1 else e) 0
          = v + 1)) := by
  intro n
  induction n with
  | zero => exact ⟨le_refl _, fun _ => rfl, fun v hv => absurd hv (Nat.not_lt_zero v)⟩
  | succ n ih =>
    obtain ⟨ih1, ih2, ih3⟩ := ih
    rw [cend_fold_succ]
    by_cases hb : bucket m n = []
    · simp only [hb, List.isEmpty_nil, Bool.not_true, Bool.false_eq_true, if_false]
      refine ⟨by omega, fun h => ih2 (fun j hj => h j (by omega)), ?_⟩
      intro v hv hne
      have hvn : v < n := by
        rcases Nat.eq_or_lt_of_le (Nat.le_of_lt_succ hv) with h | h
        · rw [h] at hne; exact absurd hb hne
        · exact h
      obtain ⟨g1, g2⟩ := ih3 v hvn hne
      exact ⟨g1, fun h => g2 (fun j h1 h2 => h j h1 (by omega))⟩
    · have he : (bucket m n).isEmpty = false := by
        cases hn : bucket m n with
        | nil => exact absurd hn hb
        | cons x xs => rfl
      simp only [he, Bool.not_false, if_true]
      refine ⟨le_refl _, fun h => absurd (h n (by omega)) hb, ?_⟩
      intro v hv _
      refine ⟨hv, ?_⟩
      intro h
      rcases Nat.eq_or_lt_of_le (Nat.le_of_lt_succ hv) with h1 | h1
      · rw [h1]
      · exact absurd (h n h1 (by omega)) hb

theorem cend_index_of_last (m : HashMap K V) (v : Nat) (hv : v < m._capacity)
    (hne : bucket m v ≠ []) (h : ∀ j, v < j → j < m._capacity → bucket m j = []) :
    cend_index m = v + 1 := by
  simp only [cend_index]
  rw [((cend_fold_spec m m._capacity).2.2 v hv hne).2 h]
  simp

/-- The skip loop of `operator++` stops at the first non-empty bucket behind
its start, or at `_capacity`; it has read the size of every bucket from its
start up to and including the index at which it stops. -/
theorem skip_loop_spec (oob : Nat → Nat) (m : HashMap K V)
    (hlen : m._capacity ≤ m._map.length) : ∀ (n s : Nat) (reads : List Nat),
    m._capacity + 1 ≤ s + n → s ≤ m._capacity →
    s ≤ (skip_loop oob m n s reads).1 ∧ (skip_loop oob m n s reads).1 ≤ m._capacity ∧
    (∀ j, s ≤ j → j < (skip_loop oob m n s reads).1 → bucket m j = []) ∧
    ((skip_loop oob m n s reads).1 < m._capacity →
      bucket m (skip_loop oob m n s reads).1 ≠ []) ∧
    (skip_loop oob m n s reads).2 =
      reads ++ List.range' s ((skip_loop oob m n s reads).1 - s + 1) := by
  intro n
  induction n with
  | zero => intro s reads h1 h2; omega
  | succ n ih =>
    intro s reads h1 h2
    simp only [skip_loop]
    by_cases hc : (size_read oob m s == 0 && decide (s < m._capacity)) = true
    · rw [if_pos hc]
      simp only [Bool.and_eq_true, beq_iff_eq, decide_eq_true_eq] at hc
      have hb : bucket m s = [] := by
        have := hc.1
        simp only [size_read, if_pos (show s < m._map.length by omega)] at this
        exact List.length_eq_zero.1 this
      obtain ⟨g1, g2, g3, g4, g5⟩ := ih (s + 1) (reads ++ [s]) (by omega) (by omega)
      refine ⟨by omega, g2, ?_, g4, ?_⟩
      · intro j h3 h4
        rcases Nat.eq_or_lt_of_le h3 with h | h
        · rw [← h]; exact hb
        · exact g3 j (by omega) h4
      · rw [g5, List.append_assoc]
        congr 1
        have : (skip_loop oob m n (s + 1) (reads ++ [s])).1 - s + 1 =
            ((skip_loop oob m n (s + 1) (reads ++ [s])).1 - (s + 1) + 1) + 1 := by omega
        rw [this, List.range'_succ]
        rfl
    · rw [if_neg hc]
      simp only [Bool.and_eq_true, beq_iff_eq, decide_eq_true_eq, not_and] at hc
      refine ⟨le_refl _, h2, fun j h3 h4 => by omega, ?_, by simp⟩
      intro hs hb
      apply hc _ hs
      simp only [size_read, if_pos (show s < m._map.length by omega)]
      simp [hb]

end HashMap

namespace HashMap

variable {K V : Type} [DecidableEq K]

theorem size_read_of_lt (oob : Nat → Nat) (m : HashMap K V) (i : Nat) (hi : i < m._map.length) :
    size_read oob m i = (bucket m i).length := by
  simp [size_read, hi]

/-- The call of `operator++` on an iterator on the last pair of its bucket:
it skips the empty buckets that follow and lands on the next non-empty
bucket, or on the position of `cend()` when there is none; it reads the size
of every bucket from its own up to the one at which the skip loop stops,
which in the second case is the bucket at index `_capacity`. -/
theorem increment_last (oob : Nat → Nat) (m : HashMap K V)
    (hlen : m._capacity ≤ m._map.length) (it : ConstIterator) (hon : on_entry m it)
    (hpi : it.pair_index_ + 1 = (bucket m it.vector_index_).length) :
    (increment oob m it).1.addr = it.addr ∧
    (increment oob m it).1.hash_map_ = it.hash_map_ ∧
    (increment oob m it).1.pair_index_ = 0 ∧
    it.vector_index_ < (increment oob m it).1.vector_index_ ∧
    (∀ j, it.vector_index_ < j → j < (increment oob m it).1.vector_index_ → bucket m j = []) ∧
    (((increment oob m it).1.vector_index_ < m._capacity ∧
        bucket m (increment oob m it).1.vector_index_ ≠ [] ∧
        entries_from m (it.vector_index_ + 1) =
          entries_from m (increment oob m it).1.vector_index_ ∧
        (increment oob m it).2 = List.range' it.vector_index_
          ((increment oob m it).1.vector_index_ - it.vector_index_ + 1)) ∨
      ((increment oob m it).1.vector_index_ = cend_index m ∧
        entries_from m (it.vector_index_ + 1) = [] ∧
        (increment oob m it).2 = List.range' it.vector_index_
          (m._capacity - it.vector_index_ + 1))) := by
  obtain ⟨hvi, hpl⟩ := hon
  obtain ⟨g1, g2, g3, g4, g5⟩ := skip_loop_spec oob m hlen (m._capacity + 1)
    (it.vector_index_ + 1) [it.vector_index_] (by omega) (by omega)
  have hne : bucket m it.vector_index_ ≠ [] := by
    intro h; rw [h] at hpl; simp at hpl
  have hinc : increment oob m it =
      ({ it with pair_index_ := 0,
                 vector_index_ :=
                   if (skip_loop oob m (m._capacity + 1) (it.vector_index_ + 1)
                        [it.vector_index_]).1 = m._capacity
                   then it.vector_index_ + 1
                   else (skip_loop oob m (m._capacity + 1) (it.vector_index_ + 1)
                        [it.vector_index_]).1 },
        (skip_loop oob m (m._capacity + 1) (it.vector_index_ + 1) [it.vector_index_]).2) := by
    simp only [increment,
      size_read_of_lt oob m _ (show it.vector_index_ < m._map.length by omega)]
    rw [if_pos (by omega)]
  rw [hinc]
  have hreads : (skip_loop oob m (m._capacity + 1) (it.vector_index_ + 1)
      [it.vector_index_]).2 = List.range' it.vector_index_
        ((skip_loop oob m (m._capacity + 1) (it.vector_index_ + 1) [it.vector_index_]).1
          - it.vector_index_ + 1) := by
    rw [g5]
    have : (skip_loop oob m (m._capacity + 1) (it.vector_index_ + 1) [it.vector_index_]).1
        - it.vector_index_ + 1 =
        ((skip_loop oob m (m._capacity + 1) (it.vector_index_ + 1) [it.vector_index_]).1
          - (it.vector_index_ + 1) + 1) + 1 := by omega
    rw [this, List.range'_succ]
    rfl
  by_cases hw : (skip_loop oob m (m._capacity + 1) (it.vector_index_ + 1)
      [it.vector_index_]).1 = m._capacity
  · simp only [hw, if_true]
    refine ⟨trivial, trivial, trivial, by omega, fun j h1 h2 => by omega, Or.inr ⟨?_, ?_, ?_⟩⟩
    · rw [cend_index_of_last m it.vector_index_ hvi hne]
      intro j h1 h2
      exact g3 j (by omega) (by omega)
    · rw [entries_from_skip m hlen (m._capacity - (it.vector_index_ + 1)) (it.vector_index_ + 1)
        m._capacity (by omega) (le_refl _) (fun j h1 h2 => g3 j h1 (by omega))]
      exact entries_from_of_le m _ (le_refl _)
    · rw [hreads, hw]
  · simp only [hw, if_false]
    have hlt : (skip_loop oob m (m._capacity + 1) (it.vector_index_ + 1)
        [it.vector_index_]).1 < m._capacity := by omega
    refine ⟨trivial, trivial, trivial, by omega, fun j h1 h2 => g3 j (by omega) h2,
      Or.inl ⟨hlt, g4 hlt, ?_, hreads⟩⟩
    exact entries_from_skip m hlen _ (it.vector_index_ + 1) _
      (Nat.add_sub_cancel' g1).symm g2 g3

end HashMap

namespace HashMap

variable {K V : Type} [DecidableEq K]

/-- On every map whose array holds its `_capacity` buckets, the call of
`operator++` that leaves the last entry reads the size of the bucket at index
`_capacity`. -/
theorem increment_reads_capacity (oob : Nat → Nat) (m : HashMap K V)
    (hlen : m._capacity ≤ m._map.length) (it : ConstIterator) (hon : on_entry m it)
    (hpi : it.pair_index_ + 1 = (bucket m it.vector_index_).length)
    (hlast : entries_from m (it.vector_index_ + 1) = []) :
    m._capacity ∈ (increment oob m it).2 := by
  obtain ⟨_, _, _, _, _, h6⟩ := increment_last oob m hlen it hon hpi
  rcases h6 with ⟨h7, h8, h9, _⟩ | ⟨_, _, h9⟩
  · exfalso
    rw [h9, entries_from_step m hlen _ h7] at hlast
    exact h8 (List.append_eq_nil.1 hlast).1
  · rw [h9, List.mem_range'_1]
    have := hon.1
    omega

/-- C20 fails on the code: on the default-constructed map after
`insert(5, 7)`, `operator++` on `begin()` reads the sizes of the buckets 5 to
16, whatever the read behind the array yields; the table has the 16 buckets
0 to 15, and the loop tests `vector_index_ < _capacity` only after the read. -/
theorem C20_increment_reads_behind_table (oob : Nat → Nat) :
    cbegin 100 1 sample_one_entry = ⟨100, 1, 5, 0⟩ ∧
    deref sample_one_entry (cbegin 100 1 sample_one_entry) = some (5, 7) ∧
    (increment oob sample_one_entry (cbegin 100 1 sample_one_entry)).2 =
      [5, 6, 7, 8, 9, 10, 11, 12, 13, 14, 15, 16] ∧
    capacity sample_one_entry = 16 ∧ sample_one_entry._map.length = 16 ∧
    capacity sample_one_entry ∈
      (increment oob sample_one_entry (cbegin 100 1 sample_one_entry)).2 := by
  have hb : cbegin 100 1 sample_one_entry = ⟨100, 1, 5, 0⟩ := by decide
  have hreads : (increment oob sample_one_entry (cbegin 100 1 sample_one_entry)).2 =
      [5, 6, 7, 8, 9, 10, 11, 12, 13, 14, 15, 16] := by
    rw [hb]
    simp [increment, skip_loop, size_read, sample_one_entry, bucket]
  refine ⟨hb, by decide, hreads, rfl, rfl, ?_⟩
  rw [hreads]
  decide

end HashMap

namespace HashMap

/-- Twelve inserts into a default-constructed map. -/
theorem reachable_filled : Reachable hash_int (sample_filled 12) :=
  Reachable.insert 1 (sample_filled 11) 11 11 true (sample_filled 12)
  (Reachable.insert 1 (sample_filled 10) 10 10 true (sample_filled 11)
  (Reachable.insert 1 (sample_filled 9) 9 9 true (sample_filled 10)
  (Reachable.insert 1 (sample_filled 8) 8 8 true (sample_filled 9)
  (Reachable.insert 1 (sample_filled 7) 7 7 true (sample_filled 8)
  (Reachable.insert 1 (sample_filled 6) 6 6 true (sample_filled 7)
  (Reachable.insert 1 (sample_filled 5) 5 5 true (sample_filled 6)
  (Reachable.insert 1 (sample_filled 4) 4 4 true (sample_filled 5)
  (Reachable.insert 1 (sample_filled 3) 3 3 true (sample_filled 4)
  (Reachable.insert 1 (sample_filled 2) 2 2 true (sample_filled 3)
  (Reachable.insert 1 (sample_filled 1) 1 1 true (sample_filled 2)
  (Reachable.insert 1 mk_default 0 0 true (sample_filled 1)
  (Reachable.default)
  (by decide))
  (by decide))
  (by decide))
  (by decide))
  (by decide))
  (by decide))
  (by decide))
  (by decide))
  (by decide))
  (by decide))
  (by decide))
  (by decide)

/-- The thirteenth insert brings the load factor to `13/16` and the rehash
doubles the table. -/
theorem reachable_grown : Reachable hash_int sample_grown :=
  Reachable.insert 1 (sample_filled 12) 12 12 true sample_grown reachable_filled (by decide)

end HashMap

namespace HashMap

variable {K V : Type} [DecidableEq K]

theorem copy_loop_total (rhs_map : List (List (K × V))) : ∀ (n i : Nat) (t : List (List (K × V))),
    i + n ≤ t.length → ∃ t1, copy_loop rhs_map n i t = some t1 := by
  intro n
  induction n with
  | zero => intro i t _; exact ⟨t, rfl⟩
  | succ n ih =>
    intro i t h
    simp only [copy_loop]
    rw [if_pos (by omega)]
    exact ih (i + 1) _ (by rw [List.length_set]; omega)

/-- The copy constructor has a defined result exactly for sources of at most
`START_CAPACITY` buckets. -/
theorem mk_copy_isSome_iff (rhs : HashMap K V) :
    (∃ m, mk_copy rhs = some m) ↔ rhs._capacity ≤ START_CAPACITY := by
  constructor
  · rintro ⟨m, hm⟩
    exact (mk_copy_spec hm).2.2.2.1
  · intro h
    obtain ⟨t1, ht1⟩ := copy_loop_total rhs._map rhs._capacity 0
      (List.replicate START_CAPACITY []) (by simpa using h)
    exact ⟨⟨rhs._size, rhs._capacity, t1⟩, by simp [mk_copy, ht1]⟩

theorem mk_copy_eq_none (rhs : HashMap K V) (h : START_CAPACITY < rhs._capacity) :
    mk_copy rhs = none := by
  rcases hc : mk_copy rhs with _ | m
  · rfl
  · have := (mk_copy_isSome_iff rhs).1 ⟨m, hc⟩
    omega

/-- On a source of at most `START_CAPACITY` buckets that satisfies the
invariant, the copy constructor yields a map with the size, the capacity
and the entries of the source, in a table of `START_CAPACITY` buckets. -/
theorem mk_copy_of_le {hash : K → Nat} {rhs : HashMap K V} (hinv : Inv hash rhs)
    (h : rhs._capacity ≤ START_CAPACITY) :
    ∃ m, mk_copy rhs = some m ∧ Inv hash m ∧ size m = size rhs ∧ capacity m = capacity rhs ∧
      entries m = entries rhs ∧ ∀ j, bucket m j = bucket rhs j := by
  obtain ⟨m, hm⟩ := (mk_copy_isSome_iff rhs).2 h
  obtain ⟨h1, h2, _, _, h5⟩ := mk_copy_spec hm
  obtain ⟨g1, g2⟩ := Inv_mk_copy hinv hm
  refine ⟨m, hm, g1, h1, h2, by rw [g1.wf.entries_eq, hinv.wf.entries_eq, g2], ?_⟩
  intro j
  rw [h5 j]
  split
  · rfl
  · exact (hinv.wf.bucket_eq_nil j (by omega)).symm

/-- C12 fails on the code: the map reached by thirteen inserts has 32
buckets, the copy constructor allocates `START_CAPACITY = 16` buckets for
the copy and writes the buckets 0 to 31, so that neither it nor
`operator=`, whose parameter is copy-constructed, has a defined result. -/
theorem C12_copy_writes_behind_table :
    Reachable hash_int sample_grown ∧ capacity sample_grown = 32 ∧ size sample_grown = 13 ∧
    copy_loop sample_grown._map 16 0 (List.replicate START_CAPACITY []) ≠ none ∧
    copy_loop sample_grown._map 17 0 (List.replicate START_CAPACITY []) = none ∧
    mk_copy sample_grown = none ∧
    operator_assign hash_int 1 sample_grown = none := by
  refine ⟨reachable_grown, rfl, rfl, by decide, by decide, by decide, by decide⟩

end HashMap

namespace HashMap

variable {K V : Type} [DecidableEq K]

theorem eq_loop_spec [DecidableEq V] {hash : K → Nat} {rhs : HashMap K V} (h : WFc hash rhs) :
    ∀ (es : List (K × V)), ∃ b, eq_loop hash rhs es = .ok b ∧
      (b = true ↔ ∀ e, e ∈ es → e ∈ rhs._map.flatten) := by
  intro es
  induction es with
  | nil => exact ⟨true, rfl, by simp⟩
  | cons e rest ih =>
    obtain ⟨b, hb1, hb2⟩ := ih
    by_cases hc : contains_key hash rhs e.1 = true
    · obtain ⟨w, hw⟩ := (h.contains_iff e.1).1 hc
      by_cases hv : e.2 = w
      · refine ⟨b, by simp [eq_loop, hc, h.at_mut_of_mem hw, hv, hb1], ?_⟩
        rw [hb2]
        constructor
        · intro hall x hx
          rcases List.mem_cons.1 hx with rfl | hx
          · rw [← hv] at hw; exact hw
          · exact hall x hx
        · intro hall x hx
          exact hall x (List.mem_cons_of_mem _ hx)
      · refine ⟨false, by simp [eq_loop, hc, h.at_mut_of_mem hw, hv], ?_⟩
        constructor
        · intro hf; exact Bool.noConfusion hf
        · intro hall
          exact absurd (h.unique_value (hall e (List.mem_cons_self _ _)) hw) hv
    · have habs : contains_key hash rhs e.1 = false := by simpa using hc
      refine ⟨false, by simp [eq_loop, habs], ?_⟩
      constructor
      · intro hf; exact Bool.noConfusion hf
      · intro hall
        exact absurd (h.contains_of_mem (hall e (List.mem_cons_self _ _))) hc

theorem WFc.nodup_entries {hash : K → Nat} {m : HashMap K V} (h : WFc hash m) :
    m._map.flatten.Nodup :=
  List.Nodup.of_map Prod.fst h.nodup_keys

/-- On well-formed maps, with a right argument of at most `START_CAPACITY`
buckets, `operator==` returns true exactly when the two maps hold the same
pairs. -/
theorem operator_eq_spec [DecidableEq V] {hash : K → Nat} {lhs arg : HashMap K V}
    (hl : WFc hash lhs) (ha : Inv hash arg) (hcap : arg._capacity ≤ START_CAPACITY) :
    ∃ b, operator_eq hash lhs arg = some (.ok b) ∧
      (b = true ↔ ∀ e, e ∈ entries lhs ↔ e ∈ entries arg) := by
  obtain ⟨rhs, h1, h2, h3, _, h5, _⟩ := mk_copy_of_le ha hcap
  have hr : entries rhs = rhs._map.flatten := h2.wf.entries_eq
  have hlen_of_same : (∀ e, e ∈ entries lhs ↔ e ∈ entries arg) → rhs._size = lhs._size := by
    intro hsame
    have hperm : (lhs._map.flatten).Perm (arg._map.flatten) := by
      rw [List.perm_ext_iff_of_nodup hl.nodup_entries ha.wf.nodup_entries]
      intro e
      have := hsame e
      rwa [hl.entries_eq, ha.wf.entries_eq] at this
    have : rhs._size = arg._size := h3
    rw [this, ha.wf.size_eq, hl.size_eq, hperm.length_eq]
  by_cases hs : rhs._size = lhs._size
  · obtain ⟨b, hb1, hb2⟩ := eq_loop_spec h2.wf (entries lhs)
    refine ⟨b, by simp [operator_eq, h1, hs, hb1], ?_⟩
    rw [hb2, ← hr, h5]
    constructor
    · intro hsub
      have hsp : (entries lhs).Subperm (entries arg) :=
        List.subperm_of_subset (by rw [hl.entries_eq]; exact hl.nodup_entries) hsub
      have hperm := hsp.perm_of_length_le (by
        rw [hl.entries_eq, ha.wf.entries_eq, ← hl.size_eq, ← ha.wf.size_eq]
        have : rhs._size = arg._size := h3
        omega)
      intro e
      exact hperm.mem_iff
    · intro hsame e he
      exact (hsame e).1 he
  · refine ⟨false, by simp [operator_eq, h1, hs], ?_⟩
    constructor
    · intro hf; exact Bool.noConfusion hf
    · intro hsame
      exact absurd (hlen_of_same hsame) hs

/-- C11 fails on the code: `operator==` takes its parameter by value, and the
copy constructor has no defined result for the map with 13 entries in 32
buckets.  With that map `b` and the one-entry map `a`, `b == a` is false and
`a == b` has no defined result; `b == b` has none either. -/
theorem C11_eq_undefined_above_start_capacity :
    Reachable hash_int sample_grown ∧ Reachable hash_int sample_one_entry ∧
    operator_eq hash_int sample_grown sample_one_entry = some (.ok false) ∧
    operator_eq hash_int sample_one_entry sample_grown = none ∧
    operator_eq hash_int sample_grown sample_grown = none ∧
    operator_ne hash_int sample_one_entry sample_grown = none := by
  have hc : mk_copy sample_grown = none := by decide
  refine ⟨reachable_grown, reachable_one_entry, rfl, ?_, ?_, ?_⟩
  · simp [operator_eq, hc]
  · simp [operator_eq, hc]
  · simp [operator_ne, hc]

end HashMap

namespace HashMap

variable {K V : Type} [DecidableEq K]

theorem run_calls_cons (hash : K → Nat) (fuel : Nat) (c : Call K V) (cs : List (Call K V))
    (m : HashMap K V) :
    run_calls hash fuel (c :: cs) m =
      (call hash fuel m c).bind fun r => run_calls hash fuel cs r.2 := rfl

/-- Inserting pairs with distinct keys, none of them in the map. -/
theorem insert_all_spec {hash : K → Nat} : ∀ (ps : List (K × V)) (m : HashMap K V),
    Inv hash m → (ps.map Prod.fst).Nodup → (∀ p, p ∈ ps → contains_key hash m p.1 = false) →
    ∃ m1, (∀ fuel, run_calls hash (fuel + 1) (ps.map (fun p => Call.insert p.1 p.2)) m
        = some m1) ∧ Inv hash m1 ∧
      (∀ e, e ∈ m1._map.flatten ↔ e ∈ m._map.flatten ∨ e ∈ ps) := by
  intro ps
  induction ps with
  | nil => intro m h _ _; exact ⟨m, fun _ => rfl, h, by simp⟩
  | cons p ps ih =>
    intro m h hnd habs
    simp only [List.map_cons, List.nodup_cons] at hnd
    have hp := habs p (List.mem_cons_self _ _)
    obtain ⟨m1, h1, _, h3, _, h5, _⟩ := insert_absent_spec h p.1 p.2 hp
    have habs2 : ∀ x, x ∈ ps → contains_key hash m1 x.1 = false := by
      intro x hx
      rw [← Bool.not_eq_true, h3.wf.contains_iff]
      rintro ⟨w, hw⟩
      rcases (h5 _).1 hw with g | g
      · have := (h.wf.contains_iff x.1).2 ⟨w, g⟩
        rw [habs x (List.mem_cons_of_mem _ hx)] at this
        exact Bool.noConfusion this
      · have hk : x.1 = p.1 := (Prod.mk.inj g).1
        exact hnd.1 (hk ▸ List.mem_map_of_mem Prod.fst hx)
    obtain ⟨m2, g1, g2, g3⟩ := ih m1 h3 hnd.2 habs2
    refine ⟨m2, ?_, g2, ?_⟩
    · intro fuel
      simp only [List.map_cons, run_calls_cons, call, h1 fuel, Option.some_bind]
      exact g1 fuel
    · intro e
      rw [g3, h5, List.mem_cons]
      constructor
      · rintro ((g | g) | g)
        · exact Or.inl g
        · exact Or.inr (Or.inl g)
        · exact Or.inr (Or.inr g)
      · rintro (g | g | g)
        · exact Or.inl (Or.inl g)
        · exact Or.inl (Or.inr g)
        · exact Or.inr g

/-- Erasing the keys of a map, each once, in any order: every `erase` finds
its key, no `erase` raises the capacity, and the map ends empty. -/
theorem erase_all_spec {hash : K → Nat} : ∀ (ks : List K) (m : HashMap K V),
    Inv hash m → (m._map.flatten.map Prod.fst).Perm ks →
    ∃ mf, (∀ fuel, run_calls hash (fuel + 1) (ks.map Call.erase) m = some mf) ∧
      mf._size = 0 ∧ Inv hash mf ∧
      ∀ l1 k l2, ks = l1 ++ k :: l2 →
        ∃ ma mb, (∀ fuel, run_calls hash (fuel + 1) (l1.map Call.erase) m = some ma) ∧
          (∀ fuel, erase hash (fuel + 1) ma k = some (true, mb)) ∧
          mb._capacity ≤ ma._capacity ∧ 1 ≤ mb._capacity := by
  intro ks
  induction ks with
  | nil =>
    intro m h hperm
    have hnil : m._map.flatten = [] := by
      have := hperm.length_eq
      simp only [List.length_map, List.length_nil] at this
      exact List.length_eq_zero.1 this
    refine ⟨m, fun _ => rfl, by rw [h.wf.size_eq, hnil]; rfl, h, ?_⟩
    intro l1 k l2 heq
    exact absurd heq (by simp)
  | cons k ks ih =>
    intro m h hperm
    have hnd : (k :: ks).Nodup := hperm.nodup_iff.1 h.wf.nodup_keys
    have hk : k ∈ m._map.flatten.map Prod.fst := hperm.mem_iff.2 (List.mem_cons_self _ _)
    obtain ⟨e, he, hek⟩ := List.mem_map.1 hk
    have hpres : contains_key hash m k = true :=
      h.wf.contains_of_mem (show (k, e.2) ∈ m._map.flatten by rw [← hek]; exact he)
    obtain ⟨m1, h1, _, h3, _, h5, h6, _⟩ := erase_present_spec h k hpres
    have hperm1 : (m1._map.flatten.map Prod.fst).Perm ks := by
      rw [List.perm_ext_iff_of_nodup h3.wf.nodup_keys (List.nodup_cons.1 hnd).2]
      intro x
      constructor
      · intro hx
        obtain ⟨y, hy, rfl⟩ := List.mem_map.1 hx
        obtain ⟨g1, g2⟩ := (h5 y).1 hy
        have := hperm.mem_iff.1 (List.mem_map_of_mem Prod.fst g1)
        rcases List.mem_cons.1 this with g | g
        · exact absurd g g2
        · exact g
      · intro hx
        have hxk : x ≠ k := by
          rintro rfl
          exact (List.nodup_cons.1 hnd).1 hx
        have := hperm.mem_iff.2 (List.mem_cons_of_mem _ hx)
        obtain ⟨y, hy, rfl⟩ := List.mem_map.1 this
        exact List.mem_map_of_mem Prod.fst ((h5 y).2 ⟨hy, hxk⟩)
    obtain ⟨mf, g1, g2, g3, g4⟩ := ih m1 h3 hperm1
    refine ⟨mf, ?_, g2, g3, ?_⟩
    · intro fuel
      simp only [List.map_cons, run_calls_cons, call, h1 fuel, Option.some_bind]
      exact g1 fuel
    · intro l1 k2 l2 heq
      cases l1 with
      | nil =>
        simp only [List.nil_append, List.cons.injEq] at heq
        obtain ⟨rfl, _⟩ := heq
        exact ⟨m, m1, fun _ => rfl, h1, h6, h3.wf.cap_pos⟩
      | cons x l1 =>
        simp only [List.cons_append, List.cons.injEq] at heq
        obtain ⟨rfl, heq2⟩ := heq
        obtain ⟨ma, mb, f1, f2, f3, f4⟩ := g4 l1 k2 l2 heq2
        refine ⟨ma, mb, ?_, f2, f3, f4⟩
        intro fuel
        simp only [List.map_cons, run_calls_cons, call, h1 fuel, Option.some_bind]
        exact f1 fuel

/-- C16: distinct keys are inserted into a default-constructed map and then
erased, each once, in any order: every call returns (given a nesting budget
of at least one `rehash`), the final map has `size() == 0` and is `empty()`,
and every `erase` of the second phase returns true and leaves a capacity that
is not above the one before it and not below 1. -/
theorem C16_insert_then_erase_all (hash : K → Nat) (fuel : Nat) (hfuel : 1 ≤ fuel)
    (ps : List (K × V)) (hnd : (ps.map Prod.fst).Nodup) (order : List K)
    (hperm : order.Perm (ps.map Prod.fst)) :
    ∃ mi mf,
      run_calls hash fuel (ps.map (fun p => Call.insert p.1 p.2)) mk_default = some mi ∧
      run_calls hash fuel (order.map Call.erase) mi = some mf ∧
      size mf = 0 ∧ empty mf = true ∧ 1 ≤ capacity mf ∧
      ∀ l1 k l2, order = l1 ++ k :: l2 →
        ∃ ma mb, run_calls hash fuel (l1.map Call.erase) mi = some ma ∧
          erase hash fuel ma k = some (true, mb) ∧
          capacity mb ≤ capacity ma ∧ 1 ≤ capacity mb := by
  obtain ⟨f, rfl⟩ : ∃ f, fuel = f + 1 := ⟨fuel - 1, by omega⟩
  obtain ⟨mi, h1, h2, h3⟩ := @insert_all_spec K V _ hash ps mk_default Inv_mk_default hnd
    (fun p _ => contains_key_fresh START_CAPACITY p.1)
  have hkeys : (mi._map.flatten.map Prod.fst).Perm order := by
    refine List.Perm.trans ?_ hperm.symm
    rw [List.perm_ext_iff_of_nodup h2.wf.nodup_keys hnd]
    intro x
    constructor
    · intro hx
      obtain ⟨y, hy, rfl⟩ := List.mem_map.1 hx
      rcases (h3 y).1 hy with g | g
      · rw [flatten_mk_default] at g; simp at g
      · exact List.mem_map_of_mem Prod.fst g
    · intro hx
      obtain ⟨y, hy, rfl⟩ := List.mem_map.1 hx
      exact List.mem_map_of_mem Prod.fst ((h3 y).2 (Or.inr hy))
  obtain ⟨mf, g1, g2, g3, g4⟩ := erase_all_spec order mi h2 hkeys
  refine ⟨mi, mf, h1 f, g1 f, g2, by simp [empty, g2], g3.wf.cap_pos, ?_⟩
  intro l1 k l2 heq
  obtain ⟨ma, mb, f1, f2, f3, f4⟩ := g4 l1 k l2 heq
  exact ⟨ma, mb, f1 f, f2 f, f3, f4⟩

/-- C16 at the keys 5 and 21, which share a bucket, erased in the order of
their insertion. -/
theorem C16_witness :
    1 ≤ 1 ∧ (([(5, 7), (21, 1)] : List (Nat × Nat)).map Prod.fst).Nodup ∧
    ([5, 21] : List Nat).Perm (([(5, 7), (21, 1)] : List (Nat × Nat)).map Prod.fst) ∧
    ∃ mi mf,
      run_calls hash_int 1 (([(5, 7), (21, 1)] : List (Nat × Nat)).map
        (fun p => Call.insert p.1 p.2)) mk_default = some mi ∧
      run_calls hash_int 1 (([5, 21] : List Nat).map Call.erase) mi = some mf ∧
      size mf = 0 ∧ empty mf = true ∧ 1 ≤ capacity mf ∧
      ∀ l1 k l2, ([5, 21] : List Nat) = l1 ++ k :: l2 →
        ∃ ma mb, run_calls hash_int 1 (l1.map Call.erase) mi = some ma ∧
          erase hash_int 1 ma k = some (true, mb) ∧
          capacity mb ≤ capacity ma ∧ 1 ≤ capacity mb :=
  ⟨by decide, by decide, by decide,
    C16_insert_then_erase_all hash_int 1 (by decide) [(5, 7), (21, 1)] (by decide) [5, 21]
      (by decide)⟩

end HashMap
